import Mathlib

/-!
Verification development for the codebase extractor
(src/codebase_extractor.py).  The script walks a directory tree,
classifies entries against exclusion and inclusion pattern sets, and
writes one aggregated text artifact (token-count header, directory
tree, file manifest, concatenated file contents).

Shallow embedding: strings are lists of characters; the filesystem is
an inductive tree whose child lists carry the order in which the
operating system enumerates a directory; functions that recurse into
subdirectories take a fuel argument (theorems hold for every fuel, and
concrete runs use an adequate fuel).  The tokenizer modelled is the
whitespace fallback of count_tokens (the tiktoken branch delegates to
an external library and is outside the embedding, as is the
progress/console layer).
-/

set_option maxRecDepth 200000

namespace CodebaseExtractor

abbrev Str := List Char

def strL (s : String) : Str := s.data

/-- Characters on which Python str.split() splits (whitespace).  The
ASCII/Latin-1 whitespace code points; other Unicode space characters
do not occur in the strings this development manipulates. -/
def pySpace (c : Char) : Bool :=
  c == ' ' || c == '\t' || c == '\n' || c == '\x0b' || c == '\x0c' || c == '\r' ||
  c == '\x1c' || c == '\x1d' || c == '\x1e' || c == '\x1f' || c == '\x85' || c == '\xa0'

/-- State machine behind len(text.split()): counts maximal runs of
non-whitespace characters.  inWord says whether the previous character
was part of a word. -/
def countTokensAux : Str → Bool → Nat
  | [], _ => 0
  | c :: t, inWord =>
    if pySpace c then countTokensAux t false
    else (if inWord then 0 else 1) + countTokensAux t true

/-- The whitespace-fallback tokenizer of count_tokens: len(text.split()). -/
def countTokens (s : Str) : Nat := countTokensAux s false

def digitChar (n : Nat) : Char := Char.ofNat (48 + n)

def natToStrAux : Nat → Nat → Str
  | _, 0 => []
  | n, fuel + 1 =>
    if n < 10 then [digitChar n]
    else natToStrAux (n / 10) fuel ++ [digitChar (n % 10)]

/-- Decimal rendering of a natural number, as Python str(int). -/
def natToStr (n : Nat) : Str := natToStrAux n (n + 1)

/-- Python startswith on character lists: the first argument occurs at
the beginning of the second. -/
def leadsWith : Str → Str → Bool
  | [], _ => true
  | _ :: _, [] => false
  | a :: as, b :: bs => a == b && leadsWith as bs

/-- Python substring containment (the in operator on str). -/
def containsSeq (needle : Str) : Str → Bool
  | [] => leadsWith needle []
  | c :: t => leadsWith needle (c :: t) || containsSeq needle t

/-- path.replace with backslash replaced by slash, the separator
normalization used throughout the script. -/
def normSlash (s : Str) : Str := s.map (fun c => if c == '\\' then '/' else c)

/-- os.path.basename on a POSIX system: the part after the last slash. -/
def basenameL (s : Str) : Str := (s.reverse.takeWhile (fun c => c != '/')).reverse

def endsWithSlash (s : Str) : Bool :=
  match s.getLast? with
  | some c => c == '/'
  | none => false

/-- Splitting a path at slashes (components of the normalized path). -/
def splitSep : Str → List Str
  | [] => [[]]
  | c :: t =>
    if c == '/' then [] :: splitSep t
    else
      match splitSep t with
      | [] => [[c]]
      | p :: ps => (c :: p) :: ps

/-- os.path.join for a relative second component. -/
def joinP (a b : Str) : Str := a ++ '/' :: b

/-- Lexicographic strict comparison by code point, as Python compares
strings. -/
def charListLt : Str → Str → Bool
  | [], [] => false
  | [], _ :: _ => true
  | _ :: _, [] => false
  | a :: as, b :: bs =>
    if a.toNat < b.toNat then true
    else if b.toNat < a.toNat then false
    else charListLt as bs

/-! ## fnmatch

Model of Python fnmatch.fnmatch on POSIX (normcase is the identity):
shell-style globs with wildcard star, question mark and bracket
classes, matched against the whole name; the star and question mark
also match separator and newline characters, because translate wraps
the pattern with the dotall flag. -/

/-- Split at the first closing bracket, used when scanning a class. -/
def findRB : Str → Option (Str × Str)
  | [] => none
  | c :: t =>
    if c == ']' then some ([], t)
    else
      match findRB t with
      | some (a, r) => some (c :: a, r)
      | none => none

/-- Given the characters after an opening bracket, extract the class
content and the remainder, mirroring the scan in fnmatch.translate: a
leading exclamation mark and then a leading closing bracket are part
of the content. -/
def splitClass (l : Str) : Option (Str × Str) :=
  let p1r1 : Str × Str :=
    match l with
    | '!' :: t => (['!'], t)
    | _ => ([], l)
  let p2r2 : Str × Str :=
    match p1r1.2 with
    | ']' :: t => ([']'], t)
    | _ => ([], p1r1.2)
  match findRB p2r2.2 with
  | some (mid, rest) => some (p1r1.1 ++ p2r2.1 ++ mid, rest)
  | none => none

/-- Items of a bracket class: ranges written lo-hi, otherwise single
characters (a trailing dash is a literal dash). -/
def classItems : Str → List (Char × Char)
  | a :: '-' :: b :: rest => (a, b) :: classItems rest
  | a :: rest => (a, a) :: classItems rest
  | [] => []

def matchClassContent (content : Str) (c : Char) : Bool :=
  let negBody : Bool × Str :=
    match content with
    | '!' :: t => (true, t)
    | _ => (false, content)
  let hit := (classItems negBody.2).any (fun i => i.1.val ≤ c.val && c.val ≤ i.2.val)
  if negBody.1 then !hit else hit

/-- Glob matcher; first argument is the pattern, second the name.
Fueled: every step shortens pattern plus name, so an initial fuel of
their combined length is adequate. -/
def gmatchF : Nat → Str → Str → Bool
  | 0, _, _ => false
  | _ + 1, [], s => s.isEmpty
  | fuel + 1, '*' :: ps, s =>
    gmatchF fuel ps s ||
      (match s with
       | [] => false
       | _ :: t => gmatchF fuel ('*' :: ps) t)
  | fuel + 1, '?' :: ps, s =>
    (match s with
     | [] => false
     | _ :: t => gmatchF fuel ps t)
  | fuel + 1, '[' :: ps, s =>
    (match splitClass ps with
     | some (content, rest) =>
       (match s with
        | [] => false
        | c :: t => matchClassContent content c && gmatchF fuel rest t)
     | none =>
       (match s with
        | [] => false
        | c :: t => (c == '[') && gmatchF fuel ps t))
  | fuel + 1, c :: ps, s =>
    (match s with
     | [] => false
     | c' :: t => (c == c') && gmatchF fuel ps t)

/-- fnmatch.fnmatch(name, pattern). -/
def fnmatchL (name pat : Str) : Bool := gmatchF (pat.length + name.length + 1) pat name

/-! ## Exclusion filter (should_exclude) -/

/-- The body of the pattern loop of should_exclude for a single
pattern.  A pattern ending in a slash matches only a directory whose
basename equals or glob-matches the stripped pattern; otherwise the
basename is glob-matched, and failing that the pattern is looked up
between slashes in the slash-wrapped normalized full path. -/
def matchesPattern (path : Str) (isDir : Bool) (pattern : Str) : Bool :=
  let pathNorm := normSlash path
  let relPath := basenameL path
  if endsWithSlash pattern then
    let dirPattern := pattern.dropLast
    isDir && (relPath == dirPattern || fnmatchL relPath dirPattern)
  else if fnmatchL relPath pattern then true
  else containsSeq ('/' :: pattern ++ ['/']) ('/' :: pathNorm ++ ['/'])

/-- should_exclude(path, exclusions) with the os.path.isdir(path) test
made explicit as the isDir argument. -/
def should_exclude (path : Str) (exclusions : List Str) (isDir : Bool) : Bool :=
  exclusions.any (fun p => matchesPattern path isDir p)

/-! ## Filesystem model and the file reader -/

/-- Outcome category of opening a file, abstracting the byte-level
encoding probing of is_binary_file and read_file: text that some
encoding in the fixed list decodes (latin-1 always succeeds, so the
unsupported-encoding fallthrough is unreachable), content whose first
block fails to decode as UTF-8 (binary), or an OS error raised while
reading. -/
inductive FileData where
  | text (content : Str)
  | binary
  | ioError (msg : Str)
deriving DecidableEq

/-- A directory tree; the order of children is the order in which the
operating system enumerates the directory (os.listdir and os.walk
order). -/
inductive Entry where
  | file (name : Str) (size : Nat) (data : FileData)
  | dir (name : Str) (children : List Entry)

def entryName : Entry → Str
  | .file n _ _ => n
  | .dir n _ => n

def entryIsDir : Entry → Bool
  | .file _ _ _ => false
  | .dir _ _ => true

/-- Integer rendering of f-string size/1024/1024 formatted with two
decimals.  Division of the float by 1024 twice is exact (powers of
two), and formatting rounds the resulting dyadic rational to two
decimals half-to-even, which this computes exactly in naturals. -/
def formatMB (size : Nat) : Str :=
  let num := size * 100
  let q := num / 1048576
  let r := num % 1048576
  let rounded :=
    if 524288 < r then q + 1
    else if r < 524288 then q
    else if q % 2 == 0 then q else q + 1
  natToStr (rounded / 100) ++ '.' ::
    (if rounded % 100 < 10 then '0' :: natToStr (rounded % 100) else natToStr (rounded % 100))

def sizeLimit : Nat := 10 * 1024 * 1024

/-- read_file: oversized files, binary files and read errors yield an
inline sentinel string instead of content; never fails. -/
def read_file (size : Nat) (data : FileData) : Str :=
  if sizeLimit < size then
    strL "[File too large: " ++ formatMB size ++ strL " MB]"
  else
    match data with
    | .text c => c
    | .binary => strL "[Binary file not shown]"
    | .ioError m => strL "[Error reading file: " ++ m ++ strL "]"

/-! ## Inclusion selector -/

/-- Resolution of a relative path, component by component, against the
children of the scan root: models os.path.isdir(os.path.join(root_dir,
pattern)).  Name lookup is by equality, as the filesystem resolves a
component. -/
def isDirComps : List Str → List Entry → Bool
  | [], _ => true
  | n :: rest, cs =>
    match cs.find? (fun e => entryName e == n) with
    | some (.dir _ cs') => isDirComps rest cs'
    | _ => false

/-- os.path.isdir(os.path.join(root_dir, pattern)) for a pattern
relative to the root; empty components (from a trailing or doubled
slash) are collapsed as the OS does when resolving the path. -/
def isDirAtPath (fsRoot : List Entry) (pattern : Str) : Bool :=
  isDirComps ((splitSep pattern).filter (fun c => !c.isEmpty)) fsRoot

/-- os.path.relpath(path, rootDir) for the paths this pipeline builds,
which all extend the root: strip the root plus separator. -/
def relpathL (path rootDir : Str) : Str :=
  if leadsWith (rootDir ++ ['/']) path then path.drop (rootDir.length + 1) else path

/-- should_include_content(path, root_dir, include_patterns); the
filesystem tree stands in for the os.path.isdir probe. -/
def should_include_content (path rootDir : Str) (fsRoot : List Entry)
    (includePatterns : List Str) : Bool :=
  if includePatterns.isEmpty then true
  else
    let relPath := relpathL path rootDir
    let relPathNorm := normSlash relPath
    includePatterns.any (fun pattern =>
      if endsWithSlash pattern then
        leadsWith pattern relPathNorm || leadsWith pattern relPath
      else if isDirAtPath fsRoot pattern then
        let dirPath := pattern ++ ['/']
        leadsWith dirPath relPathNorm || leadsWith dirPath relPath
      else if fnmatchL relPath pattern || fnmatchL relPathNorm pattern then true
      else if relPath == pattern || relPathNorm == pattern then true
      else basenameL relPath == pattern)

/-- normalize_include_patterns: a pattern naming an existing directory
is rewritten to end with a slash. -/
def normalize_include_patterns (patterns : List Str) (fsRoot : List Entry) : List Str :=
  patterns.map (fun pattern =>
    if isDirAtPath fsRoot pattern then
      if endsWithSlash pattern then pattern else pattern ++ ['/']
    else pattern)

/-! ## Traversal (os.walk loop of process_codebase) -/

/-- A file discovered by the walk: absolute path, root-relative path,
size, and read outcome. -/
structure FRec where
  abs : Str
  rel : Str
  size : Nat
  data : FileData
deriving DecidableEq

/-- Relative path of a child: empty base at root level. -/
def relChild (relBase fn : Str) : Str :=
  if relBase.isEmpty then fn else joinP relBase fn

/-- The body of the file loop of one os.walk iteration: files of the
current directory in enumeration order, skipping the output artifact
by absolute-path equality and then the exclusion filter. -/
def walkFilesHere (excl : List Str) (outAbs absPath relBase : Str) : List Entry → List FRec
  | [] => []
  | .file fn sz dt :: es =>
    (let fp := joinP absPath fn
     if fp == outAbs then []
     else if should_exclude fp excl false then []
     else [⟨fp, relChild relBase fn, sz, dt⟩]) ++ walkFilesHere excl outAbs absPath relBase es
  | .dir _ _ :: es => walkFilesHere excl outAbs absPath relBase es

/-- Descent of os.walk into the non-pruned subdirectories, in
enumeration order: a directory that should_exclude rejects is removed
from dirs in place and its subtree is never visited. -/
def walkDirsF (excl : List Str) (outAbs : Str) : Nat → Str → Str → List Entry → List FRec
  | 0, _, _, _ => []
  | _ + 1, _, _, [] => []
  | fuel + 1, absPath, relBase, .file _ _ _ :: es => walkDirsF excl outAbs fuel absPath relBase es
  | fuel + 1, absPath, relBase, .dir dn dcs :: es =>
    (let dp := joinP absPath dn
     if should_exclude dp excl true then []
     else
       walkFilesHere excl outAbs dp (relChild relBase dn) dcs ++
         walkDirsF excl outAbs fuel dp (relChild relBase dn) dcs) ++
      walkDirsF excl outAbs fuel absPath relBase es

/-- The full discovery-ordered file list of the walk from the root:
the root directory files first, then each surviving subdirectory
depth-first. -/
def walkAll (fuel : Nat) (excl : List Str) (outAbs rootPath : Str)
    (cs : List Entry) : List FRec :=
  walkFilesHere excl outAbs rootPath [] cs ++ walkDirsF excl outAbs fuel rootPath [] cs

/-! ## Tree rendering (generate_tree) -/

/-- Stable insertion of an entry into a name-sorted list (placed after
existing entries with an equal name, as Python sorted is stable). -/
def insertByName (a : Entry) : List Entry → List Entry
  | [] => [a]
  | b :: t =>
    if charListLt (entryName b) (entryName a) then b :: insertByName a t
    else a :: b :: t

/-- sorted(os.listdir(root_dir)) on the model: the enumeration sorted
lexicographically by name, stably. -/
def sortEntries : List Entry → List Entry
  | [] => []
  | a :: t => insertByName a (sortEntries t)

/-- The filtered, sorted item list of one generate_tree level. -/
def treeItems (excl : List Str) (absPath : Str) (cs : List Entry) : List Entry :=
  (sortEntries cs).filter (fun e => !should_exclude (joinP absPath (entryName e)) excl (entryIsDir e))

def joinNL (lines : List Str) : Str := List.intercalate ['\n'] lines

/-- The line-list accumulator of generate_tree over an item list: each
item contributes its branch line and, for a directory, its non-empty
rendered subtree as one further element. -/
def genTreeLinesF (excl : List Str) : Nat → Str → Str → List Entry → List Str
  | 0, _, _, _ => []
  | _ + 1, _, _, [] => []
  | fuel + 1, absPath, pre, e :: rest =>
    let isLast := rest.isEmpty
    let line := pre ++ (if isLast then strL "└── " else strL "├── ") ++ entryName e
    let sub : List Str :=
      match e with
      | .dir dn dcs =>
        let nextPre := pre ++ (if isLast then strL "    " else strL "│   ")
        let subtree :=
          joinNL (genTreeLinesF excl fuel (joinP absPath dn) nextPre (treeItems excl (joinP absPath dn) dcs))
        if subtree.isEmpty then [] else [subtree]
      | .file _ _ _ => []
    line :: (sub ++ genTreeLinesF excl fuel absPath pre rest)

/-- generate_tree(root_dir, exclusions, prefix) on the children of the
root. -/
def generate_tree (fuel : Nat) (excl : List Str) (absPath pre : Str) (cs : List Entry) : Str :=
  joinNL (genTreeLinesF excl fuel absPath pre (treeItems excl absPath cs))

/-- The paths generate_tree lists: every item of every level it
renders, in rendering order.  Mirrors the recursion of generate_tree
without the drawing prefixes. -/
def treeVisitedAuxF (excl : List Str) : Nat → Str → List Entry → List Str
  | 0, _, _ => []
  | _ + 1, _, [] => []
  | fuel + 1, absPath, e :: rest =>
    joinP absPath (entryName e) ::
      ((match e with
        | .dir dn dcs => treeVisitedAuxF excl fuel (joinP absPath dn) (treeItems excl (joinP absPath dn) dcs)
        | .file _ _ _ => []) ++ treeVisitedAuxF excl fuel absPath rest)

def treeVisited (fuel : Nat) (excl : List Str) (absPath : Str) (cs : List Entry) : List Str :=
  treeVisitedAuxF excl fuel absPath (treeItems excl absPath cs)

/-! ## str.replace and the confirmation prompts -/

/-- Left-to-right non-overlapping replacement, one character of
progress per step; fuel one more than the length of the subject is
adequate. -/
def pyReplaceF : Nat → Str → Str → Str → Str
  | 0, s, _, _ => s
  | fuel + 1, s, pat, rep =>
    if leadsWith pat s && !pat.isEmpty then
      rep ++ pyReplaceF fuel (s.drop pat.length) pat rep
    else
      match s with
      | [] => []
      | c :: t => c :: pyReplaceF fuel t pat rep

/-- Python str.replace(pat, rep): all non-overlapping occurrences,
scanned left to right; an empty pattern interleaves the replacement at
every position. -/
def pyReplace (s pat rep : Str) : Str :=
  if pat.isEmpty then rep ++ s.flatMap (fun c => c :: rep)
  else pyReplaceF (s.length + 1) s pat rep

def pyStrip (s : Str) : Str := ((s.dropWhile pySpace).reverse.dropWhile pySpace).reverse

/-- Lowercasing as relevant to the prompt comparison (ASCII letters;
the prompt answers compared against are pure ASCII). -/
def asciiLower (c : Char) : Char :=
  if 'A' ≤ c && c ≤ 'Z' then Char.ofNat (c.toNat + 32) else c

/-- response.strip().lower() compared with y or yes. -/
def affirmative (s : Str) : Bool :=
  let t := (pyStrip s).map asciiLower
  t == strL "y" || t == strL "yes"

/-! ## The aggregator pipeline (process_codebase)

Compositional model of process_codebase under TIKTOKEN_AVAILABLE =
False (whitespace-fallback tokenizer) and TQDM unavailable; the
console/progress output is not modelled.  The configuration holds
every run input: the filesystem under the (absolute) scan root, the
absolute output path, the exclusion list as assembled by main, the
parsed inclusion patterns (empty list for none, matching Python
truthiness), the two precondition bits and the two prompt answers. -/

structure Cfg where
  rootExists : Bool
  rootPath : Str
  fsRoot : List Entry
  outputAbs : Str
  exclusions : List Str
  includePatterns : List Str
  outputExists : Bool
  overwrite : Bool
  ansOverwrite : Str
  ansZeroMatch : Str

def outName (cfg : Cfg) : Str := basenameL cfg.outputAbs

/-- The effective exclusion set: the configured patterns plus the
output file basename when not already present. -/
def effExcl (cfg : Cfg) : List Str :=
  if cfg.exclusions.contains (outName cfg) then cfg.exclusions
  else cfg.exclusions ++ [outName cfg]

def normIncl (cfg : Cfg) : List Str :=
  if cfg.includePatterns.isEmpty then cfg.includePatterns
  else normalize_include_patterns cfg.includePatterns cfg.fsRoot

def allFiles (fuel : Nat) (cfg : Cfg) : List FRec :=
  walkAll fuel (effExcl cfg) cfg.outputAbs cfg.rootPath cfg.fsRoot

def includedFiles (fuel : Nat) (cfg : Cfg) : List FRec :=
  (allFiles fuel cfg).filter
    (fun f => should_include_content f.abs cfg.rootPath cfg.fsRoot (normIncl cfg))

def filesToProcess (fuel : Nat) (cfg : Cfg) : List FRec :=
  if cfg.includePatterns.isEmpty then allFiles fuel cfg else includedFiles fuel cfg

def sep80 : Str := List.replicate 80 '='

/-- One content block: blank line, delimiter, relative path,
delimiter, then the read content. -/
def frameBlock (rel content : Str) : Str :=
  strL "\n\n" ++ sep80 ++ '\n' :: rel ++ '\n' :: sep80 ++ '\n' :: content

def contentBlob (fuel : Nat) (cfg : Cfg) : Str :=
  ((filesToProcess fuel cfg).map (fun f => frameBlock f.rel (read_file f.size f.data))).flatten

/-- The running per-file token total accumulated in the processing
loop. -/
def totalTokens (fuel : Nat) (cfg : Cfg) : Nat :=
  ((filesToProcess fuel cfg).map (fun f => countTokens (read_file f.size f.data))).sum

def noteSuffix : Str := strL " (estimated with basic whitespace tokenization)"

def tokenInfo (fuel : Nat) (cfg : Cfg) : Str :=
  strL "Total Tokens: " ++ natToStr (totalTokens fuel cfg) ++ noteSuffix

def headerContent (fuel : Nat) (cfg : Cfg) : Str :=
  tokenInfo fuel cfg ++ strL "\n\n" ++
    (if cfg.includePatterns.isEmpty then []
     else strL "Note: Only selected files are included with content. Inclusion patterns: " ++
       List.intercalate (strL ", ") (normIncl cfg) ++ strL "\n\n")

def treeContentStr (fuel : Nat) (cfg : Cfg) : Str :=
  strL "Directory Structure:\n\n" ++
    generate_tree fuel (effExcl cfg) cfg.rootPath [] cfg.fsRoot ++ strL "\n\n" ++
    strL "All Files (Structure Only):\n\n" ++
    ((allFiles fuel cfg).map (fun f => strL "- " ++ f.rel ++ ['\n'])).flatten ++
    (if cfg.includePatterns.isEmpty then []
     else strL "\nFiles With Content Included:\n\n" ++
       ((includedFiles fuel cfg).map (fun f => strL "- " ++ f.rel ++ ['\n'])).flatten)

def fullOutput (fuel : Nat) (cfg : Cfg) : Str :=
  headerContent fuel cfg ++ treeContentStr fuel cfg ++ contentBlob fuel cfg

/-- count_tokens over the assembled output, the figure patched into
the header. -/
def finalTokenCount (fuel : Nat) (cfg : Cfg) : Nat := countTokens (fullOutput fuel cfg)

def updatedTokenInfo (fuel : Nat) (cfg : Cfg) : Str :=
  strL "Total Tokens: " ++ natToStr (finalTokenCount fuel cfg) ++ noteSuffix

/-- full_output.replace(token_info, updated_token_info): the bytes
written to the output file. -/
def writtenArtifact (fuel : Nat) (cfg : Cfg) : Str :=
  pyReplace (fullOutput fuel cfg) (tokenInfo fuel cfg) (updatedTokenInfo fuel cfg)

/-- The overwrite gate passes when the output file does not exist, or
force is set, or the prompt is answered affirmatively. -/
def passOverwriteGate (cfg : Cfg) : Bool :=
  !cfg.outputExists || cfg.overwrite || affirmative cfg.ansOverwrite

/-- Inclusion patterns were given but selected zero files. -/
def zeroMatchCond (fuel : Nat) (cfg : Cfg) : Bool :=
  !cfg.includePatterns.isEmpty && (includedFiles fuel cfg).isEmpty

/-- The run reaches the zero-match warning and asks for confirmation. -/
def promptedZeroMatch (fuel : Nat) (cfg : Cfg) : Bool :=
  cfg.rootExists && passOverwriteGate cfg && zeroMatchCond fuel cfg

/-- process_codebase: none when the run returns before writing (root
missing, overwrite declined, or zero-match confirmation declined),
otherwise the artifact written to the output path. -/
def process (fuel : Nat) (cfg : Cfg) : Option Str :=
  if !cfg.rootExists then none
  else if !passOverwriteGate cfg then none
  else if zeroMatchCond fuel cfg && !affirmative cfg.ansZeroMatch then none
  else some (writtenArtifact fuel cfg)

/-! ## Spec-version of the walk for C5

Modelled from the spec claim wording, not from the code: a walk whose
directory listings are sorted lexicographically before filtering at
every level.  The code sorts only inside generate_tree; the os.walk
loop of process_codebase consumes the enumeration order unchanged. -/

def walkDirsSortedF (excl : List Str) (outAbs : Str) : Nat → Str → Str → List Entry → List FRec
  | 0, _, _, _ => []
  | _ + 1, _, _, [] => []
  | fuel + 1, absPath, relBase, .file _ _ _ :: es =>
    walkDirsSortedF excl outAbs fuel absPath relBase es
  | fuel + 1, absPath, relBase, .dir dn dcs :: es =>
    (let dp := joinP absPath dn
     if should_exclude dp excl true then []
     else
       walkFilesHere excl outAbs dp (relChild relBase dn) (sortEntries dcs) ++
         walkDirsSortedF excl outAbs fuel dp (relChild relBase dn) (sortEntries dcs)) ++
      walkDirsSortedF excl outAbs fuel absPath relBase es

def walkAllSorted (fuel : Nat) (excl : List Str) (outAbs rootPath : Str)
    (cs : List Entry) : List FRec :=
  walkFilesHere excl outAbs rootPath [] (sortEntries cs) ++
    walkDirsSortedF excl outAbs fuel rootPath [] (sortEntries cs)

/-! ## Basic lemmas -/

theorem endsWithSlash_concat (l : Str) : endsWithSlash (l ++ ['/']) = true := by
  simp [endsWithSlash]

/-! ## C9: missing scan root aborts before traversal -/

/-- C9.  If the scan root does not exist, process_codebase returns at
its first statement: nothing is written for any traversal fuel. -/
theorem C9_missing_root_aborts (fuel : Nat) (cfg : Cfg) (h : cfg.rootExists = false) :
    process fuel cfg = none := by
  simp [process, h]

def c9Cfg : Cfg :=
  { rootExists := false, rootPath := strL "/r", fsRoot := [],
    outputAbs := strL "/out/out.txt", exclusions := [], includePatterns := [],
    outputExists := false, overwrite := false, ansOverwrite := [], ansZeroMatch := [] }

theorem C9_missing_root_aborts_witness :
    c9Cfg.rootExists = false ∧ process 3 c9Cfg = none :=
  ⟨by decide, C9_missing_root_aborts 3 c9Cfg (by decide)⟩

/-! ## C7: zero inclusion matches require confirmation -/

/-- C7.  When inclusion patterns are present after normalization but
select no files, the pipeline reaches the explicit confirmation
prompt, and a non-affirmative answer aborts the run with nothing
written. -/
theorem C7_zero_match_confirmation (fuel : Nat) (cfg : Cfg)
    (hroot : cfg.rootExists = true) (hgate : passOverwriteGate cfg = true)
    (hinc : normIncl cfg ≠ []) (hzero : includedFiles fuel cfg = [])
    (hans : affirmative cfg.ansZeroMatch = false) :
    promptedZeroMatch fuel cfg = true ∧ process fuel cfg = none := by
  have hne : cfg.includePatterns.isEmpty = false := by
    cases hemp : cfg.includePatterns.isEmpty with
    | false => rfl
    | true => exact absurd (by simp [normIncl, hemp]; simpa using hemp) hinc
  have hcond : zeroMatchCond fuel cfg = true := by
    simp [zeroMatchCond, hne, hzero]
  refine ⟨by simp [promptedZeroMatch, hroot, hgate, hcond], ?_⟩
  simp [process, hroot, hgate, hcond, hans]

def c7Cfg : Cfg :=
  { rootExists := true, rootPath := strL "/r",
    fsRoot := [.file (strL "a.txt") 5 (.text (strL "hello"))],
    outputAbs := strL "/out/out.txt", exclusions := [],
    includePatterns := [strL "nope.md"],
    outputExists := false, overwrite := false,
    ansOverwrite := [], ansZeroMatch := strL "n" }

theorem C7_zero_match_confirmation_witness :
    (normIncl c7Cfg ≠ [] ∧ includedFiles 4 c7Cfg = []) ∧
      promptedZeroMatch 4 c7Cfg = true ∧ process 4 c7Cfg = none :=
  ⟨⟨by decide, by decide⟩,
    C7_zero_match_confirmation 4 c7Cfg (by decide) (by decide) (by decide) (by decide)
      (by decide)⟩

/-! ## C3: directory-suffix exclusion patterns -/

/-- C3.  A pattern ending in the separator excludes exactly the
directories whose basename equals or glob-matches the stripped
pattern; in particular it never excludes a non-directory, whatever its
name. -/
theorem C3_dir_pattern_semantics (pat : Str) (h : endsWithSlash pat = true) :
    (∀ path isDir, should_exclude path [pat] isDir =
      (isDir && (basenameL path == pat.dropLast ||
        fnmatchL (basenameL path) pat.dropLast))) ∧
    (∀ path, should_exclude path [pat] false = false) := by
  constructor
  · intro path isDir
    simp [should_exclude, matchesPattern, h]
  · intro path
    simp [should_exclude, matchesPattern, h]

theorem C3_dir_pattern_semantics_witness :
    endsWithSlash (strL "p/") = true ∧
      should_exclude (strL "/r/p") [strL "p/"] true = true ∧
      should_exclude (strL "/r/p") [strL "p/"] false = false := by
  refine ⟨by decide, ?_, (C3_dir_pattern_semantics (strL "p/") (by decide)).2 (strL "/r/p")⟩
  rw [(C3_dir_pattern_semantics (strL "p/") (by decide)).1 (strL "/r/p") true]
  decide

/-! ## C6: bare directory inclusion patterns -/

/-- C6.  For a pattern naming an existing directory, normalization
appends the separator, and the content selector treats the bare and
the suffixed form identically on every path, so both select the same
files. -/
theorem C6_bare_directory_pattern (fs : List Entry) (p : Str)
    (hdir : isDirAtPath fs p = true) (hslash : endsWithSlash p = false) :
    normalize_include_patterns [p] fs = [p ++ ['/']] ∧
      ∀ path rootDir, should_include_content path rootDir fs [p] =
        should_include_content path rootDir fs [p ++ ['/']] := by
  constructor
  · simp [normalize_include_patterns, hdir, hslash]
  · intro path rootDir
    simp [should_include_content, hslash, hdir, endsWithSlash_concat]

def c6Fs : List Entry := [.dir (strL "sub") [.file (strL "c.txt") 5 (.text (strL "world"))]]

theorem C6_bare_directory_pattern_witness :
    (isDirAtPath c6Fs (strL "sub") = true ∧ endsWithSlash (strL "sub") = false) ∧
      normalize_include_patterns [strL "sub"] c6Fs = [strL "sub" ++ ['/']] ∧
      should_include_content (strL "/r/sub/c.txt") (strL "/r") c6Fs [strL "sub"] =
        should_include_content (strL "/r/sub/c.txt") (strL "/r") c6Fs [strL "sub" ++ ['/']] :=
  ⟨⟨by decide, by decide⟩,
    (C6_bare_directory_pattern c6Fs (strL "sub") (by decide) (by decide)).1,
    (C6_bare_directory_pattern c6Fs (strL "sub") (by decide) (by decide)).2
      (strL "/r/sub/c.txt") (strL "/r")⟩

/-! ## C8: per-file read failures are local -/

/-- A read that does not deliver the file text: oversized, binary, or
an OS error. -/
def readFails (f : FRec) : Prop :=
  sizeLimit < f.size ∨ f.data = .binary ∨ ∃ m, f.data = .ioError m

/-- C8.  A failing read yields one of the inline sentinel strings; the
content blob embeds the sentinel in the frame of that file with every
other selected file processed exactly as without the failure, and the
sentinel contributes its own token count to the running total. -/
theorem C8_read_failure_not_fatal (fuel : Nat) (cfg : Cfg) (l1 l2 : List FRec) (f : FRec)
    (hsplit : filesToProcess fuel cfg = l1 ++ f :: l2) (hf : readFails f) :
    (read_file f.size f.data = strL "[File too large: " ++ formatMB f.size ++ strL " MB]" ∨
      read_file f.size f.data = strL "[Binary file not shown]" ∨
      ∃ m, read_file f.size f.data = strL "[Error reading file: " ++ m ++ strL "]") ∧
    contentBlob fuel cfg =
      (l1.map (fun g => frameBlock g.rel (read_file g.size g.data))).flatten ++
        frameBlock f.rel (read_file f.size f.data) ++
        (l2.map (fun g => frameBlock g.rel (read_file g.size g.data))).flatten ∧
    totalTokens fuel cfg =
      (l1.map (fun g => countTokens (read_file g.size g.data))).sum +
        (countTokens (read_file f.size f.data) +
          (l2.map (fun g => countTokens (read_file g.size g.data))).sum) := by
  refine ⟨?_, ?_, ?_⟩
  · by_cases hsz : sizeLimit < f.size
    · exact Or.inl (by simp [read_file, hsz])
    · rcases hf with hf | hf | ⟨m, hf⟩
      · exact absurd hf hsz
      · exact Or.inr (Or.inl (by simp [read_file, hsz, hf]))
      · exact Or.inr (Or.inr ⟨m, by simp [read_file, hsz, hf]⟩)
  · simp [contentBlob, hsplit]
  · simp [totalTokens, hsplit]

def c8Cfg : Cfg :=
  { rootExists := true, rootPath := strL "/r",
    fsRoot := [.file (strL "a.txt") 5 (.text (strL "hello")),
               .file (strL "b.bin") 9 .binary,
               .file (strL "c.txt") 5 (.text (strL "world"))],
    outputAbs := strL "/out/out.txt", exclusions := [], includePatterns := [],
    outputExists := false, overwrite := true, ansOverwrite := [], ansZeroMatch := [] }

def c8F : FRec := ⟨strL "/r/b.bin", strL "b.bin", 9, .binary⟩

theorem C8_read_failure_not_fatal_witness :
    (filesToProcess 3 c8Cfg =
        [⟨strL "/r/a.txt", strL "a.txt", 5, .text (strL "hello")⟩] ++ c8F ::
          [⟨strL "/r/c.txt", strL "c.txt", 5, .text (strL "world")⟩] ∧
      readFails c8F) ∧
    read_file c8F.size c8F.data = strL "[Binary file not shown]" ∧
    totalTokens 3 c8Cfg = 1 + (countTokens (read_file c8F.size c8F.data) + 1) := by
  have h := C8_read_failure_not_fatal 3 c8Cfg
    [⟨strL "/r/a.txt", strL "a.txt", 5, .text (strL "hello")⟩]
    [⟨strL "/r/c.txt", strL "c.txt", 5, .text (strL "world")⟩] c8F
    (by decide) (Or.inr (Or.inl rfl))
  refine ⟨⟨by decide, Or.inr (Or.inl rfl)⟩, by decide, ?_⟩
  have := h.2.2
  simpa using this

/-! ## C5: ordering of traversal versus tree rendering -/

theorem charListLt_nil_right (x : Str) : charListLt x [] = false := by
  cases x <;> rfl

theorem charListLt_asymm : ∀ x y : Str, charListLt x y = true → charListLt y x = false := by
  intro x
  induction x with
  | nil =>
    intro y h
    cases y with
    | nil => simp [charListLt] at h
    | cons b bs => simp [charListLt]
  | cons a as ih =>
    intro y h
    cases y with
    | nil => simp [charListLt] at h
    | cons b bs =>
      simp only [charListLt] at h ⊢
      by_cases h1 : a.toNat < b.toNat
      · have h2 : ¬ b.toNat < a.toNat := by omega
        simp [h1, h2]
      · by_cases h2 : b.toNat < a.toNat
        · simp [h1, h2] at h
        · simp only [h1, h2, if_false] at h
          simp [h1, h2, ih bs h]

theorem charListLt_le_trans : ∀ x y z : Str, charListLt x y = false → charListLt y z = false →
    charListLt x z = false := by
  intro x
  induction x with
  | nil =>
    intro y z h1 h2
    cases y with
    | nil =>
      cases z with
      | nil => rfl
      | cons c cs => simp [charListLt] at h2
    | cons b bs => simp [charListLt] at h1
  | cons a as ih =>
    intro y z h1 h2
    cases z with
    | nil => exact charListLt_nil_right _
    | cons c cs =>
      cases y with
      | nil => simp [charListLt] at h2
      | cons b bs =>
        simp only [charListLt] at h1 h2 ⊢
        by_cases hab : a.toNat < b.toNat
        · simp [hab] at h1
        · by_cases hbc : b.toNat < c.toNat
          · simp [hbc] at h2
          · by_cases hba : b.toNat < a.toNat
            · have h3 : ¬ a.toNat < c.toNat := by
                by_cases hcb : c.toNat < b.toNat <;> omega
              have h4 : c.toNat < a.toNat := by
                by_cases hcb : c.toNat < b.toNat <;> omega
              simp [h3, h4]
            · by_cases hcb : c.toNat < b.toNat
              · have h3 : ¬ a.toNat < c.toNat := by omega
                have h4 : c.toNat < a.toNat := by omega
                simp [h3, h4]
              · have h3 : ¬ a.toNat < c.toNat := by omega
                have h4 : ¬ c.toNat < a.toNat := by omega
                simp [hab, hba] at h1
                simp [hbc, hcb] at h2
                simp [h3, h4, ih bs cs h1 h2]

/-- Ascending name order between two entries (the later one is not
strictly smaller). -/
def nameLe (a b : Entry) : Prop := charListLt (entryName b) (entryName a) = false

theorem insertByName_perm (a : Entry) : ∀ l, (insertByName a l).Perm (a :: l) := by
  intro l
  induction l with
  | nil => exact List.Perm.refl _
  | cons b t ih =>
    simp only [insertByName]
    split
    · exact (ih.cons b).trans (List.Perm.swap a b t)
    · exact List.Perm.refl _

theorem sortEntries_perm : ∀ cs : List Entry, (sortEntries cs).Perm cs := by
  intro cs
  induction cs with
  | nil => exact List.Perm.refl _
  | cons a t ih => exact (insertByName_perm a (sortEntries t)).trans (ih.cons a)

theorem pairwise_insertByName (a : Entry) :
    ∀ l, l.Pairwise nameLe → (insertByName a l).Pairwise nameLe := by
  intro l
  induction l with
  | nil => intro _; simp [insertByName]
  | cons b t ih =>
    intro hp
    rcases List.pairwise_cons.mp hp with ⟨hb, ht⟩
    simp only [insertByName]
    split
    case isTrue hlt =>
      refine List.pairwise_cons.mpr ⟨?_, ih ht⟩
      intro c hc
      have hc' := (insertByName_perm a t).mem_iff.mp hc
      rcases List.mem_cons.mp hc' with rfl | hc''
      · exact charListLt_asymm _ _ hlt
      · exact hb c hc''
    case isFalse hlt =>
      have hab : nameLe a b := by simpa [nameLe] using hlt
      refine List.pairwise_cons.mpr ⟨?_, hp⟩
      intro c hc
      rcases List.mem_cons.mp hc with rfl | hc'
      · exact hab
      · exact charListLt_le_trans _ _ _ (hb c hc') hab

theorem pairwise_sortEntries : ∀ cs : List Entry, (sortEntries cs).Pairwise nameLe := by
  intro cs
  induction cs with
  | nil => simp [sortEntries]
  | cons a t ih => exact pairwise_insertByName a (sortEntries t) ih

/-- C5 amended.  Only the tree renderer sorts: the item list of each
generate_tree level is the enumeration sorted lexicographically by
name (a permutation of the listing) and then filtered, so it is in
ascending name order; the os.walk file collection keeps the
enumeration order (see the counterexample). -/
theorem C5_tree_sorted_at_each_level (excl : List Str) (absPath : Str) (cs : List Entry) :
    (treeItems excl absPath cs).Pairwise nameLe ∧ (sortEntries cs).Perm cs :=
  ⟨(pairwise_sortEntries cs).sublist (List.filter_sublist _), sortEntries_perm cs⟩

def c5Fs : List Entry :=
  [.file (strL "b.txt") 1 (.text (strL "x")), .file (strL "a.txt") 1 (.text (strL "y"))]

/-- C5 counterexample.  On a listing enumerated as b.txt, a.txt the
walk emits the files in enumeration order, not in the sorted order the
claim asserts: the sorted-traversal reading of the claim disagrees
with the code on this input. -/
theorem C5_counterexample :
    walkAll 2 [] (strL "/out/o.txt") (strL "/r") c5Fs ≠
      walkAllSorted 2 [] (strL "/out/o.txt") (strL "/r") c5Fs ∧
    (walkAll 2 [] (strL "/out/o.txt") (strL "/r") c5Fs).map FRec.rel =
      [strL "b.txt", strL "a.txt"] ∧
    (walkAllSorted 2 [] (strL "/out/o.txt") (strL "/r") c5Fs).map FRec.rel =
      [strL "a.txt", strL "b.txt"] := by
  refine ⟨by decide, by decide, by decide⟩

/-! ## C10: self-exclusion of the output artifact by basename -/

theorem leadsWith_refl : ∀ l : Str, leadsWith l l = true := by
  intro l
  induction l with
  | nil => rfl
  | cons c t ih => simp [leadsWith, ih]

theorem containsSeq_append_self : ∀ (x n : Str), containsSeq n (x ++ n) = true := by
  intro x n
  induction x with
  | nil =>
    cases n with
    | nil => rfl
    | cons c t => simp [containsSeq, leadsWith_refl]
  | cons x₁ xs ih =>
    simp [containsSeq, ih]

def dirPartL (s : Str) : Str := (s.reverse.dropWhile (fun c => c != '/')).reverse

theorem dirPart_append_basename (s : Str) : dirPartL s ++ basenameL s = s := by
  have h : s.reverse.takeWhile (fun c => c != '/') ++ s.reverse.dropWhile (fun c => c != '/') =
      s.reverse := List.takeWhile_append_dropWhile _ _
  have h2 : (s.reverse.takeWhile (fun c => c != '/') ++
      s.reverse.dropWhile (fun c => c != '/')).reverse = s := by rw [h]; simp
  rw [List.reverse_append] at h2
  simpa [dirPartL, basenameL] using h2

theorem basenameL_no_slash (s : Str) : '/' ∉ basenameL s := by
  intro hmem
  have h1 : '/' ∈ s.reverse.takeWhile (fun c => c != '/') := by
    simpa [basenameL] using hmem
  have h2 := List.mem_takeWhile_imp h1
  simp at h2

theorem dirPart_shape (s : Str) : dirPartL s = [] ∨ ∃ d, dirPartL s = d ++ ['/'] := by
  cases h : s.reverse.dropWhile (fun c => c != '/') with
  | nil => exact Or.inl (by simp [dirPartL, h])
  | cons c t =>
    have hc : (c != '/') = false := by
      have := List.head?_dropWhile_not (p := fun c => c != '/') (l := s.reverse)
      rw [h] at this
      simpa using this
    have hc' : c = '/' := by simpa using hc
    refine Or.inr ⟨t.reverse, ?_⟩
    simp [dirPartL, h, hc']

theorem normSlash_append (a b : Str) : normSlash (a ++ b) = normSlash a ++ normSlash b := by
  simp [normSlash]

theorem normSlash_of_no_backslash (l : Str) (h : '\\' ∉ l) : normSlash l = l := by
  induction l with
  | nil => rfl
  | cons c t ih =>
    have hc : c ≠ '\\' := fun hh => h (hh ▸ List.mem_cons_self c t)
    have ht : '\\' ∉ t := fun hh => h (List.mem_cons_of_mem c hh)
    simp only [normSlash, List.map_cons]
    have hmap : List.map (fun c => if c == '\\' then '/' else c) t = t := ih ht
    rw [hmap]
    simp [hc]

theorem mem_of_getLast?_eq : ∀ (l : Str) (c : Char), l.getLast? = some c → c ∈ l := by
  intro l
  induction l with
  | nil => intro c h; simp at h
  | cons a t ih =>
    intro c h
    cases t with
    | nil => simp at h; simp [h]
    | cons b t' =>
      rw [List.getLast?_cons_cons] at h
      exact List.mem_cons_of_mem a (ih c h)

theorem endsWithSlash_true_mem (l : Str) (h : endsWithSlash l = true) : '/' ∈ l := by
  unfold endsWithSlash at h
  cases hg : l.getLast? with
  | none => rw [hg] at h; simp at h
  | some c =>
    rw [hg] at h
    have hc : c = '/' := by simpa using h
    subst hc
    exact mem_of_getLast?_eq l '/' hg

/-- A pattern equal to the basename of a path always excludes the
path, for files and directories alike, provided the basename contains
no backslash: the path-component rule fires on the slash-wrapped
normalized path. -/
theorem excluded_of_basename_eq (path outN : Str) (excl : List Str) (isDir : Bool)
    (hmem : outN ∈ excl) (hbn : basenameL path = outN) (hbs : '\\' ∉ outN) :
    should_exclude path excl isDir = true := by
  have hslash : '/' ∉ outN := hbn ▸ basenameL_no_slash path
  have hends : endsWithSlash outN = false := by
    cases h : endsWithSlash outN with
    | false => rfl
    | true => exact absurd (endsWithSlash_true_mem outN h) hslash
  have hdec := dirPart_append_basename path
  rw [hbn] at hdec
  have hcont : containsSeq ('/' :: outN ++ ['/']) ('/' :: normSlash path ++ ['/']) = true := by
    rcases dirPart_shape path with hd | ⟨d, hd⟩
    · rw [hd] at hdec
      simp at hdec
      rw [← hdec]
      rw [normSlash_of_no_backslash outN hbs]
      simpa using containsSeq_append_self [] ('/' :: outN ++ ['/'])
    · rw [hd] at hdec
      rw [← hdec]
      have hn : normSlash ((d ++ ['/']) ++ outN) = (normSlash d ++ ['/']) ++ outN := by
        rw [normSlash_append, normSlash_append, normSlash_of_no_backslash outN hbs]
        simp [normSlash]
      rw [hn]
      have hsplit : ('/' :: ((normSlash d ++ ['/']) ++ outN) ++ ['/']) =
          ('/' :: normSlash d) ++ ('/' :: outN ++ ['/']) := by simp
      rw [hsplit]
      exact containsSeq_append_self _ _
  have hmatch : matchesPattern path isDir outN = true := by
    cases hf : fnmatchL (basenameL path) outN
    · simpa [matchesPattern, hends, hf] using hcont
    · simp [matchesPattern, hends, hf]
  exact List.any_eq_true.mpr ⟨outN, hmem, hmatch⟩

theorem outName_mem_effExcl (cfg : Cfg) : outName cfg ∈ effExcl cfg := by
  unfold effExcl
  split
  case isTrue h => exact List.mem_of_elem_eq_true h
  case isFalse h => exact List.mem_append_right _ (List.mem_singleton.mpr rfl)

theorem mem_walkFilesHere_not_excluded :
    ∀ (excl : List Str) (outAbs A rB : Str) (cs : List Entry) (f : FRec),
      f ∈ walkFilesHere excl outAbs A rB cs → should_exclude f.abs excl false = false := by
  intro excl outAbs A rB cs
  induction cs with
  | nil => intro f h; simp [walkFilesHere] at h
  | cons e es ih =>
    intro f h
    cases e with
    | dir n c => exact ih f (by simpa [walkFilesHere] using h)
    | file fn sz dt =>
      simp only [walkFilesHere, List.mem_append] at h
      rcases h with h | h
      · by_cases h1 : (joinP A fn == outAbs) = true
        · simp [h1] at h
        · by_cases h2 : should_exclude (joinP A fn) excl false = true
          · simp [h1, h2] at h
          · simp [h1, h2] at h
            subst h
            simpa using h2
      · exact ih f h

theorem mem_walkDirsF_not_excluded :
    ∀ (fuel : Nat) (excl : List Str) (outAbs A rB : Str) (cs : List Entry) (f : FRec),
      f ∈ walkDirsF excl outAbs fuel A rB cs → should_exclude f.abs excl false = false := by
  intro fuel
  induction fuel with
  | zero => intro excl outAbs A rB cs f h; simp [walkDirsF] at h
  | succ fuel ih =>
    intro excl outAbs A rB cs f h
    cases cs with
    | nil => simp [walkDirsF] at h
    | cons e es =>
      cases e with
      | file fn sz dt => exact ih excl outAbs A rB es f (by simpa [walkDirsF] using h)
      | dir dn dcs =>
        simp only [walkDirsF, List.mem_append] at h
        rcases h with h | h
        · by_cases hex : should_exclude (joinP A dn) excl true = true
          · simp [hex] at h
          · simp [hex] at h
            rcases h with h | h
            · exact mem_walkFilesHere_not_excluded excl outAbs _ _ dcs f h
            · exact ih excl outAbs _ _ dcs f h
        · exact ih excl outAbs A rB es f h

theorem mem_allFiles_not_excluded (fuel : Nat) (cfg : Cfg) (f : FRec)
    (h : f ∈ allFiles fuel cfg) : should_exclude f.abs (effExcl cfg) false = false := by
  rcases List.mem_append.mp h with h | h
  · exact mem_walkFilesHere_not_excluded _ _ _ _ _ f h
  · exact mem_walkDirsF_not_excluded fuel _ _ _ _ _ f h

theorem mem_treeVisitedAux_not_excluded :
    ∀ (fuel : Nat) (excl : List Str) (A : Str) (l : List Entry),
      (∀ e ∈ l, should_exclude (joinP A (entryName e)) excl (entryIsDir e) = false) →
      ∀ p ∈ treeVisitedAuxF excl fuel A l, ∃ b, should_exclude p excl b = false := by
  intro fuel
  induction fuel with
  | zero => intro excl A l hl p hp; simp [treeVisitedAuxF] at hp
  | succ fuel ih =>
    intro excl A l hl p hp
    cases l with
    | nil => simp [treeVisitedAuxF] at hp
    | cons e rest =>
      simp only [treeVisitedAuxF, List.mem_cons, List.mem_append] at hp
      rcases hp with rfl | hp | hp
      · exact ⟨entryIsDir e, hl e (List.mem_cons_self e rest)⟩
      · cases e with
        | file fn sz dt => simp at hp
        | dir dn dcs =>
          refine ih excl (joinP A dn) (treeItems excl (joinP A dn) dcs) ?_ p hp
          intro e' he'
          have := (List.mem_filter.mp he').2
          simpa using this
      · exact ih excl A rest (fun e' he' => hl e' (List.mem_cons_of_mem e he')) p hp

/-- C10 amended.  Appending the output basename to the exclusion set
blocks every same-named file (and directory) from the file list and
from the rendered tree, provided the basename contains no backslash;
a basename combining glob metacharacters with a backslash escapes both
the glob rule and the component rule (see the counterexample), and the
artifact itself is additionally skipped by absolute-path equality. -/
theorem C10_basename_self_exclusion (fuel : Nat) (cfg : Cfg)
    (hbs : '\\' ∉ outName cfg) :
    (∀ f ∈ allFiles fuel cfg, basenameL f.abs ≠ outName cfg) ∧
    (∀ p ∈ treeVisited fuel (effExcl cfg) cfg.rootPath cfg.fsRoot,
      basenameL p ≠ outName cfg) := by
  constructor
  · intro f hf hbn
    have hex := mem_allFiles_not_excluded fuel cfg f hf
    have := excluded_of_basename_eq f.abs (outName cfg) (effExcl cfg) false
      (outName_mem_effExcl cfg) hbn hbs
    rw [this] at hex
    exact absurd hex (by simp)
  · intro p hp hbn
    have hfilt : ∀ e ∈ treeItems (effExcl cfg) cfg.rootPath cfg.fsRoot,
        should_exclude (joinP cfg.rootPath (entryName e)) (effExcl cfg) (entryIsDir e) = false := by
      intro e he
      have := (List.mem_filter.mp he).2
      simpa using this
    rcases mem_treeVisitedAux_not_excluded fuel (effExcl cfg) cfg.rootPath _ hfilt p hp with ⟨b, hb⟩
    have := excluded_of_basename_eq p (outName cfg) (effExcl cfg) b
      (outName_mem_effExcl cfg) hbn hbs
    rw [this] at hb
    exact absurd hb (by simp)

def c10Cfg : Cfg :=
  { rootExists := true, rootPath := strL "/r",
    fsRoot := [.dir (strL "sub") [.file (strL "o[1]\\b.txt") 1 (.text (strL "z"))]],
    outputAbs := strL "/tmp/o[1]\\b.txt", exclusions := [], includePatterns := [],
    outputExists := false, overwrite := true, ansOverwrite := [], ansZeroMatch := [] }

/-- C10 counterexample.  With output basename o[1] backslash b.txt, a
same-named file elsewhere in the tree stays in the file list: the
bracket stops the glob match of the appended pattern against the
basename, and the backslash is rewritten to a slash by the path
normalization so the component rule misses too. -/
theorem C10_counterexample :
    (allFiles 3 c10Cfg).map FRec.abs = [strL "/r/sub/o[1]\\b.txt"] ∧
      basenameL (strL "/r/sub/o[1]\\b.txt") = outName c10Cfg := by
  refine ⟨by decide, by decide⟩

def c10WCfg : Cfg :=
  { rootExists := true, rootPath := strL "/r",
    fsRoot := [.dir (strL "sub") [.file (strL "out.txt") 1 (.text (strL "z"))]],
    outputAbs := strL "/tmp/out.txt", exclusions := [], includePatterns := [],
    outputExists := false, overwrite := true, ansOverwrite := [], ansZeroMatch := [] }

theorem C10_basename_self_exclusion_witness :
    ('\\' ∉ outName c10WCfg) ∧
      (∀ f ∈ allFiles 3 c10WCfg, basenameL f.abs ≠ outName c10WCfg) ∧
      (allFiles 3 c10WCfg).map FRec.abs = [] := by
  refine ⟨by decide, (C10_basename_self_exclusion 3 c10WCfg (by decide)).1, by decide⟩

/-! ## C4: the path-component rule -/

theorem splitSep_no_slash : ∀ s : Str, '/' ∉ s → splitSep s = [s] := by
  intro s
  induction s with
  | nil => intro _; rfl
  | cons c t ih =>
    intro h
    have hc : ¬(c = '/') := fun hh => h (by simp [hh])
    have ht : '/' ∉ t := fun hh => h (by simp [hh])
    simp only [splitSep]
    rw [ih ht]
    simp [hc]

theorem splitSep_first_slash : ∀ (a b : Str), '/' ∉ a →
    splitSep (a ++ '/' :: b) = a :: splitSep b := by
  intro a
  induction a with
  | nil => intro b _; simp [splitSep]
  | cons c a' ih =>
    intro b h
    have hc : ¬(c = '/') := fun hh => h (by simp [hh])
    have ha' : '/' ∉ a' := fun hh => h (by simp [hh])
    have hih := ih b ha'
    rw [List.cons_append]
    simp only [splitSep, List.append_eq] at hih ⊢
    rw [hih]
    simp [hc]

theorem exists_first_slash (s : Str) (h : '/' ∈ s) :
    ∃ a b, s = a ++ '/' :: b ∧ '/' ∉ a := by
  have hjoin : s.takeWhile (fun c => c != '/') ++ s.dropWhile (fun c => c != '/') = s :=
    List.takeWhile_append_dropWhile _ _
  cases hd : s.dropWhile (fun c => c != '/') with
  | nil =>
    exfalso
    rw [← hjoin, hd, List.append_nil] at h
    have := List.mem_takeWhile_imp h
    simp at this
  | cons c t =>
    have hc' : c = '/' := by
      have := List.head?_dropWhile_not (p := fun c => c != '/') (l := s)
      rw [hd] at this
      simpa using this
    subst hc'
    refine ⟨s.takeWhile (fun c => c != '/'), t, ?_, ?_⟩
    · conv_lhs => rw [← hjoin]
      rw [hd]
    · intro hmem
      have := List.mem_takeWhile_imp hmem
      simp at this

theorem first_slash_eq : ∀ (a p b r : Str), '/' ∉ a → '/' ∉ p →
    a ++ '/' :: b = p ++ '/' :: r → a = p ∧ b = r := by
  intro a
  induction a with
  | nil =>
    intro p b r _ hp heq
    cases p with
    | nil => simpa using heq
    | cons d p' =>
      exfalso
      have : '/' = d := by simpa using congrArg (fun l => l.head?) heq
      exact hp (by simp [← this])
  | cons c a' ih =>
    intro p b r ha hp heq
    cases p with
    | nil =>
      exfalso
      have : c = '/' := by simpa using congrArg (fun l => l.head?) heq
      exact ha (by simp [this])
    | cons d p' =>
      have hcd : c = d := by simpa using congrArg (fun l => l.head?) heq
      have htl : a' ++ '/' :: b = p' ++ '/' :: r := by
        have := congrArg List.tail heq
        simpa using this
      have ha' : '/' ∉ a' := fun hh => ha (by simp [hh])
      have hp' : '/' ∉ p' := fun hh => hp (by simp [hh])
      rcases ih p' b r ha' hp' htl with ⟨h1, h2⟩
      exact ⟨by rw [hcd, h1], h2⟩

theorem leadsWith_slash_end : ∀ (p s : Str), '/' ∉ p →
    (leadsWith (p ++ ['/']) (s ++ ['/']) = true ↔ (s = p ∨ ∃ r, s = p ++ '/' :: r)) := by
  intro p
  induction p with
  | nil =>
    intro s _
    cases s with
    | nil => simp [leadsWith]
    | cons c t =>
      by_cases hc : c = '/'
      · subst hc
        have hLW : leadsWith ([] ++ ['/']) (('/' :: t) ++ ['/']) = true := by
          simp [leadsWith]
        rw [hLW]
        simp only [true_iff]
        exact Or.inr ⟨t, rfl⟩
      · have h'' : ¬('/' = c) := fun hh => hc hh.symm
        have hLW : leadsWith ([] ++ ['/']) ((c :: t) ++ ['/']) = false := by
          simp [leadsWith, h'']
        rw [hLW]
        simp only [Bool.false_eq_true, false_iff]
        rintro (heq | ⟨r, heq⟩)
        · simp at heq
        · have : c = '/' := by simpa using congrArg (fun l => l.head?) heq
          exact hc this
  | cons a p' ih =>
    intro s h
    have ha : ¬(a = '/') := fun hh => h (by simp [hh])
    have hp' : '/' ∉ p' := fun hh => h (by simp [hh])
    cases s with
    | nil =>
      have hLW : leadsWith ((a :: p') ++ ['/']) ([] ++ ['/']) = false := by
        cases p' <;> simp [leadsWith]
      rw [hLW]
      simp only [Bool.false_eq_true, false_iff]
      rintro (heq | ⟨r, heq⟩)
      · simp at heq
      · simp at heq
    | cons b s' =>
      by_cases hab : a = b
      · subst hab
        have hih := ih s' hp'
        simp only [List.cons_append, leadsWith, beq_self_eq_true, Bool.true_and,
          List.cons.injEq, true_and]
        exact hih
      · have hab' : ¬(a == b) = true := by simpa using hab
        have hLW : leadsWith ((a :: p') ++ ['/']) ((b :: s') ++ ['/']) = false := by
          simp only [List.cons_append, leadsWith]
          simp [hab]
        rw [hLW]
        simp only [Bool.false_eq_true, false_iff]
        rintro (heq | ⟨r, heq⟩)
        · have : b = a := by simpa using congrArg (fun l => l.head?) heq
          exact hab this.symm
        · have : b = a := by simpa using congrArg (fun l => l.head?) heq
          exact hab this.symm

theorem containsSeq_skip : ∀ (a m u : Str), '/' ∉ a →
    containsSeq ('/' :: m) (a ++ u) = containsSeq ('/' :: m) u := by
  intro a
  induction a with
  | nil => intro m u _; rfl
  | cons c a' ih =>
    intro m u h
    have hc : ¬('/' = c) := fun hh => h (by simp [← hh])
    have ha' : '/' ∉ a' := fun hh => h (by simp [hh])
    have hih := ih m u ha'
    simp only [List.cons_append, containsSeq, leadsWith, List.append_eq] at hih ⊢
    rw [hih]
    simp [hc]

theorem containsSeq_cons (n : Str) (c : Char) (t : Str) :
    containsSeq n (c :: t) = (leadsWith n (c :: t) || containsSeq n t) := rfl

theorem containsSeq_slash_single (m : Str) (h : m ≠ []) :
    containsSeq ('/' :: m) ['/'] = false := by
  cases m with
  | nil => exact absurd rfl h
  | cons x m' => simp [containsSeq, leadsWith]

/-- The slash-bounded containment test succeeds exactly when the
(slash-free) pattern is one of the slash-separated components of the
path. -/
theorem componentIffAux : ∀ (n : Nat) (s : Str), s.length ≤ n → ∀ p : Str, '/' ∉ p →
    (containsSeq ('/' :: p ++ ['/']) ('/' :: s ++ ['/']) = true ↔ p ∈ splitSep s) := by
  intro n
  induction n with
  | zero =>
    intro s hs p hp
    have hnil : s = [] := List.length_eq_zero.mp (Nat.le_zero.mp hs)
    subst hnil
    cases p with
    | nil => simp [containsSeq, leadsWith, splitSep]
    | cons c q =>
      have h1 : leadsWith (q ++ ['/']) [] = false := by
        cases q <;> simp [leadsWith]
      simp [containsSeq, leadsWith, splitSep, h1]
  | succ n ih =>
    intro s hs p hp
    by_cases hsl : '/' ∈ s
    · rcases exists_first_slash s hsl with ⟨a, b, rfl, ha⟩
      have hb : b.length ≤ n := by
        have := hs
        simp [List.length_append] at this
        omega
      have hrec := ih b hb p hp
      simp only [List.cons_append] at hrec ⊢
      have hsk : containsSeq ('/' :: (p ++ ['/'])) ((a ++ '/' :: b) ++ ['/'])
          = containsSeq ('/' :: (p ++ ['/'])) ('/' :: (b ++ ['/'])) := by
        have h0 : (a ++ '/' :: b) ++ ['/'] = a ++ ('/' :: (b ++ ['/'])) := by simp
        rw [h0]
        exact containsSeq_skip a _ _ ha
      rw [containsSeq_cons, hsk]
      have hlw' : leadsWith ('/' :: (p ++ ['/'])) ('/' :: ((a ++ '/' :: b) ++ ['/']))
          = leadsWith (p ++ ['/']) ((a ++ '/' :: b) ++ ['/']) := by
        simp [leadsWith]
      rw [hlw']
      have hlw := leadsWith_slash_end p (a ++ '/' :: b) hp
      rw [splitSep_first_slash a b ha]
      simp only [Bool.or_eq_true, hlw, hrec, List.mem_cons]
      constructor
      · rintro ((hcase | ⟨r, hr⟩) | hcase)
        · exfalso
          have : '/' ∈ p := by
            rw [← hcase]
            simp
          exact hp this
        · rcases first_slash_eq a p b r ha hp hr with ⟨h1, _⟩
          exact Or.inl h1.symm
        · exact Or.inr hcase
      · rintro (hcase | hcase)
        · exact Or.inl (Or.inr ⟨b, by rw [hcase]⟩)
        · exact Or.inr hcase
    · rw [splitSep_no_slash s hsl]
      simp only [List.cons_append]
      have hz : containsSeq ('/' :: (p ++ ['/'])) (s ++ ['/']) = false := by
        rw [containsSeq_skip s (p ++ ['/']) ['/'] hsl]
        exact containsSeq_slash_single (p ++ ['/']) (by simp)
      rw [containsSeq_cons]
      have hlw' : leadsWith ('/' :: (p ++ ['/'])) ('/' :: (s ++ ['/']))
          = leadsWith (p ++ ['/']) (s ++ ['/']) := by
        simp [leadsWith]
      rw [hlw', hz]
      simp only [Bool.or_false]
      rw [leadsWith_slash_end p s hp]
      constructor
      · rintro (hcase | ⟨r, hr⟩)
        · exact List.mem_singleton.mpr hcase.symm
        · exfalso
          apply hsl
          rw [hr]
          simp
      · intro hcase
        exact Or.inl (List.mem_singleton.mp hcase).symm

theorem componentIff (s p : Str) (hp : '/' ∉ p) :
    containsSeq ('/' :: p ++ ['/']) ('/' :: s ++ ['/']) = true ↔ p ∈ splitSep s :=
  componentIffAux s.length s (Nat.le_refl _) p hp

/-- C4 amended.  For a pattern free of the separator that does not end
in it and whose glob does not match the basename, exclusion holds
exactly when the pattern is a complete component of the normalized
path.  A pattern containing the separator can also exclude, by
matching a run of consecutive whole components, although it is not a
single component (see the counterexample). -/
theorem C4_component_rule (path pat : Str) (isDir : Bool)
    (h1 : endsWithSlash pat = false) (h2 : fnmatchL (basenameL path) pat = false)
    (h3 : '/' ∉ pat) :
    should_exclude path [pat] isDir = true ↔ pat ∈ splitSep (normSlash path) := by
  have hm : should_exclude path [pat] isDir =
      containsSeq ('/' :: pat ++ ['/']) ('/' :: normSlash path ++ ['/']) := by
    simp [should_exclude, matchesPattern, h1, h2]
  rw [hm]
  exact componentIff (normSlash path) pat h3

/-- C4 counterexample.  The pattern a/b is no single path component of
x/a/b/y.txt, yet the containment rule excludes the path: the claimed
equivalence fails as soon as the pattern contains the separator. -/
theorem C4_counterexample :
    endsWithSlash (strL "a/b") = false ∧
      fnmatchL (basenameL (strL "x/a/b/y.txt")) (strL "a/b") = false ∧
      should_exclude (strL "x/a/b/y.txt") [strL "a/b"] false = true ∧
      strL "a/b" ∉ splitSep (normSlash (strL "x/a/b/y.txt")) := by
  refine ⟨by decide, by decide, by decide, by decide⟩

theorem C4_component_rule_witness :
    (endsWithSlash (strL "build") = false ∧
      fnmatchL (basenameL (strL "/r/x/build/y.txt")) (strL "build") = false ∧
      '/' ∉ strL "build") ∧
    should_exclude (strL "/r/x/build/y.txt") [strL "build"] false = true := by
  refine ⟨⟨by decide, by decide, by decide⟩, ?_⟩
  exact (C4_component_rule (strL "/r/x/build/y.txt") (strL "build") false (by decide)
    (by decide) (by decide)).mpr (by decide)

/-! ## C2: pruned subtrees are invisible

Prefix toolkit for reasoning about the paths the walk and the tree
renderer produce. -/

theorem leadsWith_append_cancel : ∀ (a u v : Str),
    leadsWith (a ++ u) (a ++ v) = leadsWith u v := by
  intro a
  induction a with
  | nil => intro u v; rfl
  | cons c t ih => intro u v; simp [leadsWith, ih]

theorem leadsWith_append_self : ∀ (x y : Str), leadsWith x (x ++ y) = true := by
  intro x y
  have := leadsWith_append_cancel x [] y
  simpa using this

theorem leadsWith_mem : ∀ (u v : Str), leadsWith u v = true → ∀ c ∈ u, c ∈ v := by
  intro u
  induction u with
  | nil => intro v _ c hc; simp at hc
  | cons a t ih =>
    intro v h c hc
    cases v with
    | nil => simp [leadsWith] at h
    | cons b w =>
      simp only [leadsWith, Bool.and_eq_true, beq_iff_eq] at h
      rcases List.mem_cons.mp hc with rfl | hc'
      · simp [h.1]
      · exact List.mem_cons_of_mem b (ih w h.2 c hc')

theorem leadsWith_trans : ∀ (x y z : Str),
    leadsWith x y = true → leadsWith y z = true → leadsWith x z = true := by
  intro x
  induction x with
  | nil => intro y z _ _; rfl
  | cons a t ih =>
    intro y z h1 h2
    cases y with
    | nil => simp [leadsWith] at h1
    | cons b w =>
      cases z with
      | nil => simp [leadsWith] at h2
      | cons c v =>
        simp only [leadsWith, Bool.and_eq_true, beq_iff_eq] at h1 h2 ⊢
        exact ⟨h1.1.trans h2.1, ih w v h1.2 h2.2⟩

theorem leadsWith_comparable : ∀ (w x y : Str),
    leadsWith x w = true → leadsWith y w = true →
    leadsWith x y = true ∨ leadsWith y x = true := by
  intro w
  induction w with
  | nil =>
    intro x y h1 h2
    cases x with
    | nil => exact Or.inl rfl
    | cons a t => simp [leadsWith] at h1
  | cons c v ih =>
    intro x y h1 h2
    cases x with
    | nil => exact Or.inl rfl
    | cons a t =>
      cases y with
      | nil => exact Or.inr rfl
      | cons b u =>
        simp only [leadsWith, Bool.and_eq_true, beq_iff_eq] at h1 h2 ⊢
        rcases ih t u h1.2 h2.2 with h | h
        · exact Or.inl ⟨h1.1.trans h2.1.symm, h⟩
        · exact Or.inr ⟨h2.1.trans h1.1.symm, h⟩

/-- Two slash-free segments followed by a slash agree when one
slash-terminated form is a prefix of the other. -/
theorem seg_eq_of_leadsWith : ∀ (a b x y : Str), '/' ∉ a → '/' ∉ b →
    leadsWith (a ++ '/' :: x) (b ++ '/' :: y) = true → a = b := by
  intro a
  induction a with
  | nil =>
    intro b x y _ hb h
    cases b with
    | nil => rfl
    | cons d b' =>
      exfalso
      simp only [List.nil_append, leadsWith, Bool.and_eq_true, beq_iff_eq] at h
      exact hb (by simp [← h.1])
  | cons c a' ih =>
    intro b x y ha hb h
    cases b with
    | nil =>
      exfalso
      simp only [List.nil_append, List.cons_append, leadsWith, Bool.and_eq_true,
        beq_iff_eq] at h
      exact ha (by simp [h.1])
    | cons d b' =>
      simp only [List.cons_append, leadsWith, Bool.and_eq_true, beq_iff_eq] at h
      have ha' : '/' ∉ a' := fun hh => ha (by simp [hh])
      have hb' : '/' ∉ b' := fun hh => hb (by simp [hh])
      rw [h.1, ih b' x y ha' hb' h.2]

/-- The byte string of a nonempty chain of names joined by slashes. -/
def joinNames : List Str → Str
  | [] => []
  | [n] => n
  | n :: rest => n ++ '/' :: joinNames rest

/-- Absolute path of a chain of names below a base path. -/
def joinAbs (base : Str) (chain : List Str) : Str := chain.foldl joinP base

theorem joinAbs_cons (base : Str) (n : Str) (rest : List Str) :
    joinAbs base (n :: rest) = joinAbs (joinP base n) rest := rfl

theorem joinAbs_append (base : Str) (u v : List Str) :
    joinAbs base (u ++ v) = joinAbs (joinAbs base u) v := List.foldl_append ..

theorem joinAbs_eq_joinNames : ∀ (chain : List Str) (base : Str), chain ≠ [] →
    joinAbs base chain = base ++ '/' :: joinNames chain := by
  intro chain
  induction chain with
  | nil => intro base h; exact absurd rfl h
  | cons n rest ih =>
    intro base _
    cases rest with
    | nil => simp [joinAbs, joinP, joinNames]
    | cons m rest' =>
      rw [joinAbs_cons, ih (joinP base n) (by simp)]
      simp [joinP, joinNames]

/-- Well-formed directory trees: every name is free of the path
separator, as the operating system guarantees. -/
inductive EntryWf : Entry → Prop where
  | file : ∀ (n : Str) (sz : Nat) (d : FileData), '/' ∉ n → EntryWf (.file n sz d)
  | dir : ∀ (n : Str) (cs : List Entry), '/' ∉ n → (∀ e ∈ cs, EntryWf e) →
      EntryWf (.dir n cs)

theorem EntryWf.name_no_slash {e : Entry} (h : EntryWf e) : '/' ∉ entryName e := by
  cases h with
  | file n sz d hn => exact hn
  | dir n cs hn _ => exact hn

theorem EntryWf.children_wf {n : Str} {cs : List Entry} (h : EntryWf (.dir n cs)) :
    ∀ e ∈ cs, EntryWf e := by
  cases h with
  | dir _ _ _ hcs => exact hcs

/-- An entry of the tree reached by following a chain of names from a
list of root entries.  The chain records every name on the way,
including the name of the entry itself. -/
inductive LocatedAt : List Entry → List Str → Entry → Prop where
  | here : ∀ {cs : List Entry} {e : Entry}, e ∈ cs → LocatedAt cs [entryName e] e
  | deeper : ∀ {cs : List Entry} {dn : Str} {dcs : List Entry} {names : List Str}
      {sub : Entry}, Entry.dir dn dcs ∈ cs → LocatedAt dcs names sub →
      LocatedAt cs (dn :: names) sub

theorem LocatedAt.chain_facts : ∀ {cs : List Entry} {ch : List Str} {e : Entry},
    LocatedAt cs ch e → (∀ x ∈ cs, EntryWf x) →
    ch ≠ [] ∧ (∀ nm ∈ ch, '/' ∉ nm) ∧ EntryWf e := by
  intro cs ch e h
  induction h with
  | here hmem =>
    intro hwf
    refine ⟨by simp, ?_, hwf _ hmem⟩
    intro nm hnm
    rcases List.mem_singleton.mp hnm with rfl
    exact (hwf _ hmem).name_no_slash
  | deeper hmem _ ih =>
    intro hwf
    have hdwf := hwf _ hmem
    have hrest := ih (hdwf.children_wf)
    refine ⟨by simp, ?_, hrest.2.2⟩
    intro nm hnm
    rcases List.mem_cons.mp hnm with rfl | hnm'
    · exact hdwf.name_no_slash
    · exact hrest.2.1 nm hnm'

theorem mem_walkFilesHere_shape :
    ∀ (excl : List Str) (outAbs A rB : Str) (cs : List Entry) (f : FRec),
      f ∈ walkFilesHere excl outAbs A rB cs →
      ∃ fn sz dt, Entry.file fn sz dt ∈ cs ∧ f.abs = joinP A fn := by
  intro excl outAbs A rB cs
  induction cs with
  | nil => intro f h; simp [walkFilesHere] at h
  | cons e es ih =>
    intro f h
    cases e with
    | dir n c =>
      rcases ih f (by simpa [walkFilesHere] using h) with ⟨fn, sz, dt, hmem, habs⟩
      exact ⟨fn, sz, dt, List.mem_cons_of_mem _ hmem, habs⟩
    | file fn sz dt =>
      simp only [walkFilesHere, List.mem_append] at h
      rcases h with h | h
      · by_cases h1 : (joinP A fn == outAbs) = true
        · simp [h1] at h
        · by_cases h2 : should_exclude (joinP A fn) excl false = true
          · simp [h1, h2] at h
          · simp [h1, h2] at h
            subst h
            exact ⟨fn, sz, dt, List.mem_cons_self _ _, rfl⟩
      · rcases ih f h with ⟨fn', sz', dt', hmem, habs⟩
        exact ⟨fn', sz', dt', List.mem_cons_of_mem _ hmem, habs⟩

theorem joinP_twice (A dn fn : Str) :
    joinP (joinP A dn) fn = (A ++ ['/']) ++ (dn ++ '/' :: fn) := by
  simp [joinP]

theorem mem_walkDirsF_prefixed :
    ∀ (fuel : Nat) (excl : List Str) (outAbs A rB : Str) (cs : List Entry) (f : FRec),
      f ∈ walkDirsF excl outAbs fuel A rB cs → leadsWith (A ++ ['/']) f.abs = true := by
  intro fuel
  induction fuel with
  | zero => intro excl outAbs A rB cs f h; simp [walkDirsF] at h
  | succ fuel ih =>
    intro excl outAbs A rB cs f h
    cases cs with
    | nil => simp [walkDirsF] at h
    | cons e es =>
      cases e with
      | file fn sz dt => exact ih excl outAbs A rB es f (by simpa [walkDirsF] using h)
      | dir dn dcs =>
        simp only [walkDirsF, List.mem_append] at h
        rcases h with h | h
        · by_cases hex : should_exclude (joinP A dn) excl true = true
          · simp [hex] at h
          · simp [hex] at h
            rcases h with h | h
            · rcases mem_walkFilesHere_shape excl outAbs _ _ dcs f h with ⟨fn, sz, dt, _, habs⟩
              rw [habs, joinP_twice]
              exact leadsWith_append_self _ _
            · have hsub := ih excl outAbs (joinP A dn) _ dcs f h
              have hpfx : leadsWith (A ++ ['/']) (joinP A dn ++ ['/']) = true := by
                have : joinP A dn ++ ['/'] = (A ++ ['/']) ++ (dn ++ ['/']) := by simp [joinP]
                rw [this]
                exact leadsWith_append_self _ _
              exact leadsWith_trans _ _ _ hpfx hsub
        · exact ih excl outAbs A rB es f h

/-- The slash-terminated path of a nonempty chain below a base can
prefix the path of a direct child of the base only through a slash in
the child name, which well-formed names exclude. -/
theorem no_lead_joinNames (A : Str) (pre : List Str) (hpre : pre ≠ []) (nm : Str)
    (hnm : '/' ∉ nm) : leadsWith (joinAbs A pre ++ ['/']) (joinP A nm) = false := by
  cases hcon : leadsWith (joinAbs A pre ++ ['/']) (joinP A nm) with
  | false => rfl
  | true =>
    exfalso
    have h1 : joinAbs A pre ++ ['/'] = (A ++ ['/']) ++ (joinNames pre ++ ['/']) := by
      rw [joinAbs_eq_joinNames pre A hpre]
      simp
    have h2 : joinP A nm = (A ++ ['/']) ++ nm := by simp [joinP]
    rw [h1, h2, leadsWith_append_cancel] at hcon
    have : '/' ∈ nm := leadsWith_mem _ _ hcon '/' (by simp)
    exact hnm this

theorem walkFilesHere_no_deep_path (excl : List Str) (outAbs A rB : Str) (cs : List Entry)
    (pre : List Str) (hpre : pre ≠ []) (hwf : ∀ e ∈ cs, EntryWf e) (f : FRec)
    (hf : f ∈ walkFilesHere excl outAbs A rB cs) :
    leadsWith (joinAbs A pre ++ ['/']) f.abs = false := by
  rcases mem_walkFilesHere_shape excl outAbs A rB cs f hf with ⟨fn, sz, dt, hmem, habs⟩
  have hfn : '/' ∉ fn := (hwf _ hmem).name_no_slash
  rw [habs]
  exact no_lead_joinNames A pre hpre fn hfn

/-- The chain below a directory name can be read off a prefix
relation: the first segments agree. -/
theorem first_seg_eq (A n dn : Str) (w : Str) (hn : '/' ∉ n) (hdn : '/' ∉ dn)
    (hcomp : leadsWith ((A ++ ['/']) ++ (n ++ '/' :: w)) ((A ++ ['/']) ++ (dn ++ ['/'])) = true ∨
      leadsWith ((A ++ ['/']) ++ (dn ++ ['/'])) ((A ++ ['/']) ++ (n ++ '/' :: w)) = true) :
    n = dn := by
  rcases hcomp with h | h
  · rw [leadsWith_append_cancel] at h
    exact seg_eq_of_leadsWith n dn w [] hn hdn h
  · rw [leadsWith_append_cancel] at h
    exact (seg_eq_of_leadsWith dn n [] w hdn hn h).symm

theorem joinNames_cons_shape (n : Str) (pre' : List Str) :
    ∃ w, joinNames (n :: pre') ++ ['/'] = n ++ '/' :: w := by
  cases pre' with
  | nil => exact ⟨[], by simp [joinNames]⟩
  | cons m r => exact ⟨joinNames (m :: r) ++ ['/'], by simp [joinNames]⟩

theorem walkDirsF_no_excluded_subtree :
    ∀ (fuel : Nat) (excl : List Str) (outAbs A rB : Str) (cs : List Entry) (pre : List Str),
      pre ≠ [] → (∀ nm ∈ pre, '/' ∉ nm) → (∀ e ∈ cs, EntryWf e) →
      should_exclude (joinAbs A pre) excl true = true →
      ∀ f ∈ walkDirsF excl outAbs fuel A rB cs,
        leadsWith (joinAbs A pre ++ ['/']) f.abs = false := by
  intro fuel
  induction fuel with
  | zero => intro excl outAbs A rB cs pre _ _ _ _ f hf; simp [walkDirsF] at hf
  | succ fuel ih =>
    intro excl outAbs A rB cs pre hpre hnames hwf hexcl f hf
    cases cs with
    | nil => simp [walkDirsF] at hf
    | cons e es =>
      have hwfes : ∀ x ∈ es, EntryWf x := fun x hx => hwf x (List.mem_cons_of_mem e hx)
      cases e with
      | file fn sz dt =>
        exact ih excl outAbs A rB es pre hpre hnames hwfes hexcl f
          (by simpa [walkDirsF] using hf)
      | dir dn dcs =>
        have hwfd := hwf _ (List.mem_cons_self _ _)
        have hdn : '/' ∉ dn := hwfd.name_no_slash
        have hwfdcs : ∀ x ∈ dcs, EntryWf x := hwfd.children_wf
        obtain ⟨n, pre', rfl⟩ : ∃ n pre', pre = n :: pre' := by
          cases pre with
          | nil => exact absurd rfl hpre
          | cons n pre' => exact ⟨n, pre', rfl⟩
        have hn : '/' ∉ n := hnames n (by simp)
        simp only [walkDirsF, List.mem_append] at hf
        rcases hf with hf | hf
        · by_cases hex : should_exclude (joinP A dn) excl true = true
          · simp [hex] at hf
          · simp [hex] at hf
            have hdesc : leadsWith ((joinP A dn) ++ ['/']) f.abs = true := by
              rcases hf with hf | hf
              · rcases mem_walkFilesHere_shape excl outAbs _ _ dcs f hf with
                  ⟨fn', sz', dt', _, habs⟩
                rw [habs, joinP_twice]
                have : (A ++ ['/']) ++ (dn ++ '/' :: fn') =
                    ((joinP A dn) ++ ['/']) ++ fn' := by simp [joinP]
                rw [this]
                exact leadsWith_append_self _ _
              · exact mem_walkDirsF_prefixed fuel excl outAbs _ _ dcs f hf
            cases hcon : leadsWith (joinAbs A (n :: pre') ++ ['/']) f.abs with
            | false => rfl
            | true =>
              exfalso
              obtain ⟨w, hw⟩ := joinNames_cons_shape n pre'
              have h1 : joinAbs A (n :: pre') ++ ['/'] =
                  (A ++ ['/']) ++ (n ++ '/' :: w) := by
                rw [joinAbs_eq_joinNames _ A (by simp)]
                rw [show A ++ '/' :: joinNames (n :: pre') ++ ['/'] =
                  (A ++ ['/']) ++ (joinNames (n :: pre') ++ ['/']) by simp]
                rw [hw]
              have h2 : (joinP A dn) ++ ['/'] = (A ++ ['/']) ++ (dn ++ ['/']) := by
                simp [joinP]
              have hcomp := leadsWith_comparable f.abs _ _
                (h1 ▸ hcon) (h2 ▸ hdesc)
              have hndn : n = dn := first_seg_eq A n dn w hn hdn hcomp
              subst hndn
              cases pre' with
              | nil =>
                apply hex
                simpa [joinAbs, joinP] using hexcl
              | cons m r =>
                have hnames' : ∀ nm ∈ m :: r, '/' ∉ nm :=
                  fun nm hnm => hnames nm (List.mem_cons_of_mem n hnm)
                have hexcl' : should_exclude (joinAbs (joinP A n) (m :: r)) excl true = true := by
                  rw [← joinAbs_cons]
                  exact hexcl
                rcases hf with hf | hf
                · have := walkFilesHere_no_deep_path excl outAbs (joinP A n) _ dcs
                    (m :: r) (by simp) hwfdcs f hf
                  rw [joinAbs_cons] at hcon
                  rw [this] at hcon
                  exact Bool.false_ne_true hcon
                · have := ih excl outAbs (joinP A n) _ dcs (m :: r) (by simp) hnames'
                    hwfdcs hexcl' f hf
                  rw [joinAbs_cons] at hcon
                  rw [this] at hcon
                  exact Bool.false_ne_true hcon
        · exact ih excl outAbs A rB es (n :: pre') hpre hnames hwfes hexcl f hf

theorem mem_treeItems (excl : List Str) (A : Str) (cs : List Entry) (e : Entry)
    (h : e ∈ treeItems excl A cs) :
    e ∈ cs ∧ should_exclude (joinP A (entryName e)) excl (entryIsDir e) = false := by
  rcases List.mem_filter.mp h with ⟨hmem, hcond⟩
  exact ⟨(sortEntries_perm cs).mem_iff.mp hmem, by simpa using hcond⟩

theorem mem_treeVisitedAux_prefixed :
    ∀ (fuel : Nat) (excl : List Str) (A : Str) (l : List Entry) (p : Str),
      p ∈ treeVisitedAuxF excl fuel A l → leadsWith (A ++ ['/']) p = true := by
  intro fuel
  induction fuel with
  | zero => intro excl A l p hp; simp [treeVisitedAuxF] at hp
  | succ fuel ih =>
    intro excl A l p hp
    cases l with
    | nil => simp [treeVisitedAuxF] at hp
    | cons e rest =>
      simp only [treeVisitedAuxF, List.mem_cons, List.mem_append] at hp
      rcases hp with rfl | hp | hp
      · rw [show joinP A (entryName e) = (A ++ ['/']) ++ entryName e by simp [joinP]]
        exact leadsWith_append_self _ _
      · cases e with
        | file fn sz dt => simp at hp
        | dir dn dcs =>
          have hsub := ih excl (joinP A dn) _ p hp
          have hpfx : leadsWith (A ++ ['/']) (joinP A dn ++ ['/']) = true := by
            rw [show joinP A dn ++ ['/'] = (A ++ ['/']) ++ (dn ++ ['/']) by simp [joinP]]
            exact leadsWith_append_self _ _
          exact leadsWith_trans _ _ _ hpfx hsub
      · exact ih excl A rest p hp

theorem treeVisitedAux_no_excluded_subtree :
    ∀ (fuel : Nat) (excl : List Str) (A : Str) (l : List Entry) (pre : List Str),
      pre ≠ [] → (∀ nm ∈ pre, '/' ∉ nm) → (∀ e ∈ l, EntryWf e) →
      (∀ e ∈ l, should_exclude (joinP A (entryName e)) excl (entryIsDir e) = false) →
      should_exclude (joinAbs A pre) excl true = true →
      ∀ p ∈ treeVisitedAuxF excl fuel A l,
        leadsWith (joinAbs A pre ++ ['/']) p = false := by
  intro fuel
  induction fuel with
  | zero => intro excl A l pre _ _ _ _ _ p hp; simp [treeVisitedAuxF] at hp
  | succ fuel ih =>
    intro excl A l pre hpre hnames hwf hfilt hexcl p hp
    cases l with
    | nil => simp [treeVisitedAuxF] at hp
    | cons e rest =>
      obtain ⟨n, pre', rfl⟩ : ∃ n pre', pre = n :: pre' := by
        cases pre with
        | nil => exact absurd rfl hpre
        | cons n pre' => exact ⟨n, pre', rfl⟩
      have hn : '/' ∉ n := hnames n (by simp)
      simp only [treeVisitedAuxF, List.mem_cons, List.mem_append] at hp
      rcases hp with rfl | hp | hp
      · exact no_lead_joinNames A (n :: pre') (by simp) (entryName e)
          (hwf e (List.mem_cons_self _ _)).name_no_slash
      · cases e with
        | file fn sz dt => simp at hp
        | dir dn dcs =>
          have hwfd := hwf _ (List.mem_cons_self _ _)
          have hdn : '/' ∉ dn := hwfd.name_no_slash
          have hwfdcs := hwfd.children_wf
          have hnotex : should_exclude (joinP A dn) excl true = false := by
            have := hfilt _ (List.mem_cons_self _ _)
            simpa [entryIsDir] using this
          have hdesc : leadsWith ((joinP A dn) ++ ['/']) p = true :=
            mem_treeVisitedAux_prefixed fuel excl (joinP A dn) _ p hp
          cases hcon : leadsWith (joinAbs A (n :: pre') ++ ['/']) p with
          | false => rfl
          | true =>
            exfalso
            obtain ⟨w, hw⟩ := joinNames_cons_shape n pre'
            have h1 : joinAbs A (n :: pre') ++ ['/'] =
                (A ++ ['/']) ++ (n ++ '/' :: w) := by
              rw [joinAbs_eq_joinNames _ A (by simp)]
              rw [show A ++ '/' :: joinNames (n :: pre') ++ ['/'] =
                (A ++ ['/']) ++ (joinNames (n :: pre') ++ ['/']) by simp]
              rw [hw]
            have h2 : (joinP A dn) ++ ['/'] = (A ++ ['/']) ++ (dn ++ ['/']) := by
              simp [joinP]
            have hcomp := leadsWith_comparable p _ _ (h1 ▸ hcon) (h2 ▸ hdesc)
            have hndn : n = dn := first_seg_eq A n dn w hn hdn hcomp
            subst hndn
            cases pre' with
            | nil =>
              rw [show joinAbs A [n] = joinP A n by simp [joinAbs, joinP]] at hexcl
              rw [hexcl] at hnotex
              simp at hnotex
            | cons m r =>
              have hnames' : ∀ nm ∈ m :: r, '/' ∉ nm :=
                fun nm hnm => hnames nm (List.mem_cons_of_mem n hnm)
              have hexcl' : should_exclude (joinAbs (joinP A n) (m :: r)) excl true = true := by
                rw [← joinAbs_cons]
                exact hexcl
              have hwf' : ∀ x ∈ treeItems excl (joinP A n) dcs, EntryWf x :=
                fun x hx => hwfdcs x (mem_treeItems excl _ dcs x hx).1
              have hfilt' : ∀ x ∈ treeItems excl (joinP A n) dcs,
                  should_exclude (joinP (joinP A n) (entryName x)) excl (entryIsDir x) = false :=
                fun x hx => (mem_treeItems excl _ dcs x hx).2
              have := ih excl (joinP A n) (treeItems excl (joinP A n) dcs) (m :: r)
                (by simp) hnames' hwf' hfilt' hexcl' p hp
              rw [joinAbs_cons] at hcon
              rw [this] at hcon
              exact Bool.false_ne_true hcon
      · exact ih excl A rest (n :: pre') hpre hnames
          (fun x hx => hwf x (List.mem_cons_of_mem e hx))
          (fun x hx => hfilt x (List.mem_cons_of_mem e hx)) hexcl p hp

/-- C2.  A directory that should_exclude rejects is pruned before
descent: for every file located anywhere below it, the file path never
appears in the collected file list (hence not in the manifest, which
lists exactly those files) nor among the paths the directory-tree
renderer lists, even if the file itself matches any inclusion
pattern — inclusion is consulted only for files already collected. -/
theorem C2_excluded_subtree_invisible (fuel : Nat) (cfg : Cfg)
    (pre sub : List Str) (dn : Str) (dcs : List Entry) (fn : Str) (fsz : Nat)
    (fdt : FileData)
    (hwf : ∀ e ∈ cfg.fsRoot, EntryWf e)
    (hdir : LocatedAt cfg.fsRoot pre (.dir dn dcs))
    (hexcl : should_exclude (joinAbs cfg.rootPath pre) (effExcl cfg) true = true)
    (hfile : LocatedAt dcs sub (.file fn fsz fdt)) :
    (∀ f ∈ allFiles fuel cfg, f.abs ≠ joinAbs cfg.rootPath (pre ++ sub)) ∧
    joinAbs cfg.rootPath (pre ++ sub) ∉
      treeVisited fuel (effExcl cfg) cfg.rootPath cfg.fsRoot := by
  obtain ⟨hpre, hnames, hwfdir⟩ := hdir.chain_facts hwf
  have hwfdcs : ∀ e ∈ dcs, EntryWf e := hwfdir.children_wf
  obtain ⟨hsub, _, _⟩ := hfile.chain_facts hwfdcs
  have hfull : leadsWith (joinAbs cfg.rootPath pre ++ ['/'])
      (joinAbs cfg.rootPath (pre ++ sub)) = true := by
    rw [joinAbs_append, joinAbs_eq_joinNames sub _ hsub]
    rw [show joinAbs cfg.rootPath pre ++ '/' :: joinNames sub =
      (joinAbs cfg.rootPath pre ++ ['/']) ++ joinNames sub by simp]
    exact leadsWith_append_self _ _
  constructor
  · intro f hf heq
    have hfalse : leadsWith (joinAbs cfg.rootPath pre ++ ['/']) f.abs = false := by
      rcases List.mem_append.mp hf with hf | hf
      · exact walkFilesHere_no_deep_path _ _ _ _ _ pre hpre hwf f hf
      · exact walkDirsF_no_excluded_subtree fuel _ _ _ _ _ pre hpre hnames hwf hexcl f hf
    rw [heq, hfull] at hfalse
    simp at hfalse
  · intro hp
    have hwf' : ∀ x ∈ treeItems (effExcl cfg) cfg.rootPath cfg.fsRoot, EntryWf x :=
      fun x hx => hwf x (mem_treeItems _ _ _ x hx).1
    have hfilt' : ∀ x ∈ treeItems (effExcl cfg) cfg.rootPath cfg.fsRoot,
        should_exclude (joinP cfg.rootPath (entryName x)) (effExcl cfg) (entryIsDir x) = false :=
      fun x hx => (mem_treeItems _ _ _ x hx).2
    have hfalse := treeVisitedAux_no_excluded_subtree fuel (effExcl cfg) cfg.rootPath _
      pre hpre hnames hwf' hfilt' hexcl _ hp
    rw [hfull] at hfalse
    simp at hfalse

def c2Cfg : Cfg :=
  { rootExists := true, rootPath := strL "/r",
    fsRoot := [.dir (strL "build") [.file (strL "a.txt") 3 (.text (strL "x y"))],
               .file (strL "keep.txt") 1 (.text (strL "k"))],
    outputAbs := strL "/out/out.txt", exclusions := [strL "build/"],
    includePatterns := [strL "a.txt"],
    outputExists := false, overwrite := true, ansOverwrite := [], ansZeroMatch := [] }

theorem C2_excluded_subtree_invisible_witness :
    should_exclude (joinAbs (strL "/r") [strL "build"]) (effExcl c2Cfg) true = true ∧
    (∀ f ∈ allFiles 4 c2Cfg, f.abs ≠ joinAbs (strL "/r") ([strL "build"] ++ [strL "a.txt"])) ∧
    (allFiles 4 c2Cfg).map FRec.abs = [strL "/r/keep.txt"] := by
  have hwf : ∀ e ∈ c2Cfg.fsRoot, EntryWf e := by
    intro e he
    rcases List.mem_cons.mp he with rfl | he'
    · refine EntryWf.dir _ _ (by decide) ?_
      intro x hx
      rcases List.mem_singleton.mp hx with rfl
      exact EntryWf.file _ _ _ (by decide)
    · rcases List.mem_singleton.mp he' with rfl
      exact EntryWf.file _ _ _ (by decide)
  have hdir : LocatedAt c2Cfg.fsRoot [strL "build"]
      (.dir (strL "build") [.file (strL "a.txt") 3 (.text (strL "x y"))]) :=
    LocatedAt.here (List.mem_cons_self _ _)
  have hfile : LocatedAt [Entry.file (strL "a.txt") 3 (.text (strL "x y"))]
      [strL "a.txt"] (.file (strL "a.txt") 3 (.text (strL "x y"))) :=
    LocatedAt.here (List.mem_singleton.mpr rfl)
  refine ⟨by decide, ?_, by decide⟩
  exact (C2_excluded_subtree_invisible 4 c2Cfg [strL "build"] [strL "a.txt"] _ _ _ _ _
    hwf hdir (by decide) hfile).1

/-! ## C1: the token figure in the header

Counting machinery for the whitespace tokenizer: replacing one
nonempty run of non-whitespace characters by another leaves the token
count of any surrounding text unchanged, so the
count-then-patch-the-digits trick of process_codebase is sound for
this tokenizer. -/

theorem countAux_cons (c : Char) (t : Str) (b : Bool) :
    countTokensAux (c :: t) b =
      if pySpace c then countTokensAux t false
      else (if b then 0 else 1) + countTokensAux t true := rfl

theorem countAux_nonspace_run : ∀ (d : Str), d ≠ [] → (∀ c ∈ d, pySpace c = false) →
    ∀ (y : Str) (b : Bool),
      countTokensAux (d ++ y) b = (if b then 0 else 1) + countTokensAux y true := by
  intro d
  induction d with
  | nil => intro h; exact absurd rfl h
  | cons c t ih =>
    intro _ hns y b
    have hc : pySpace c = false := hns c (List.mem_cons_self _ _)
    cases t with
    | nil =>
      rw [List.cons_append, List.nil_append, countAux_cons]
      rw [if_neg (by simp [hc])]
    | cons c' t' =>
      have ht : ∀ x ∈ c' :: t', pySpace x = false :=
        fun x hx => hns x (List.mem_cons_of_mem c hx)
      have hrec := ih (by simp) ht y true
      rw [List.cons_append, countAux_cons, if_neg (by simp [hc]), hrec]
      simp

theorem countAux_digit_swap (d₁ d₂ : Str) (h₁ : d₁ ≠ []) (h₂ : d₂ ≠ [])
    (hn₁ : ∀ c ∈ d₁, pySpace c = false) (hn₂ : ∀ c ∈ d₂, pySpace c = false) :
    ∀ (x y : Str) (b : Bool),
      countTokensAux ((x ++ d₁) ++ y) b = countTokensAux ((x ++ d₂) ++ y) b := by
  intro x
  induction x with
  | nil =>
    intro y b
    simp only [List.nil_append]
    rw [countAux_nonspace_run d₁ h₁ hn₁ y b, countAux_nonspace_run d₂ h₂ hn₂ y b]
  | cons c t ih =>
    intro y b
    have e₁ : ((c :: t) ++ d₁) ++ y = c :: ((t ++ d₁) ++ y) := by simp
    have e₂ : ((c :: t) ++ d₂) ++ y = c :: ((t ++ d₂) ++ y) := by simp
    rw [e₁, e₂, countAux_cons, countAux_cons]
    cases hc : pySpace c
    · simp only [hc, Bool.false_eq_true, if_false]
      rw [ih y true]
    · simp only [hc, eq_self_iff_true, if_true]
      exact ih y false

/-- The in-word state of the tokenizer after reading a string. -/
def stateAfter : Str → Bool → Bool
  | [], b => b
  | c :: t, _ => stateAfter t (!pySpace c)

theorem stateAfter_append : ∀ (u v : Str) (b : Bool),
    stateAfter (u ++ v) b = stateAfter v (stateAfter u b) := by
  intro u
  induction u with
  | nil => intro v b; rfl
  | cons c t ih => intro v b; simp [stateAfter, ih]

theorem stateAfter_nonspace : ∀ (d : Str), d ≠ [] → (∀ c ∈ d, pySpace c = false) →
    ∀ b, stateAfter d b = true := by
  intro d
  induction d with
  | nil => intro h; exact absurd rfl h
  | cons c t ih =>
    intro _ hns b
    cases t with
    | nil => simp [stateAfter, hns c (List.mem_cons_self _ _)]
    | cons c' t' =>
      have ht : ∀ x ∈ c' :: t', pySpace x = false :=
        fun x hx => hns x (List.mem_cons_of_mem c hx)
      simp only [stateAfter]
      exact ih (by simp) ht (!pySpace c)

theorem countAux_append : ∀ (u v : Str) (b : Bool),
    countTokensAux (u ++ v) b = countTokensAux u b + countTokensAux v (stateAfter u b) := by
  intro u
  induction u with
  | nil => intro v b; simp [countTokensAux, stateAfter]
  | cons c t ih =>
    intro v b
    rw [List.cons_append, countAux_cons, countAux_cons]
    simp only [stateAfter]
    cases hc : pySpace c
    · simp only [hc, Bool.false_eq_true, if_false, Bool.not_false]
      rw [ih v true]
      omega
    · simp only [hc, eq_self_iff_true, if_true, Bool.not_true]
      rw [ih v false]

theorem leadsWith_eq_append : ∀ (u s : Str), leadsWith u s = true →
    s = u ++ s.drop u.length := by
  intro u
  induction u with
  | nil => intro s _; simp
  | cons a t ih =>
    intro s h
    cases s with
    | nil => simp [leadsWith] at h
    | cons b w =>
      simp only [leadsWith, Bool.and_eq_true, beq_iff_eq] at h
      simp only [List.cons_append, List.length_cons, List.drop_succ_cons]
      rw [h.1, ← ih w h.2]

theorem pyReplaceF_succ (fuel : Nat) (s pat rep : Str) :
    pyReplaceF (fuel + 1) s pat rep =
      if leadsWith pat s && !pat.isEmpty then
        rep ++ pyReplaceF fuel (s.drop pat.length) pat rep
      else
        match s with
        | [] => []
        | c :: t => c :: pyReplaceF fuel t pat rep := rfl

theorem countAux_pyReplaceF (P S d₁ d₂ : Str) (h₁ : d₁ ≠ []) (h₂ : d₂ ≠ [])
    (hn₁ : ∀ c ∈ d₁, pySpace c = false) (hn₂ : ∀ c ∈ d₂, pySpace c = false) :
    ∀ (fuel : Nat) (s : Str) (b : Bool),
      countTokensAux (pyReplaceF fuel s ((P ++ d₁) ++ S) ((P ++ d₂) ++ S)) b =
        countTokensAux s b := by
  intro fuel
  induction fuel with
  | zero => intro s b; rfl
  | succ fuel ih =>
    intro s b
    rw [pyReplaceF_succ]
    by_cases hcond : (leadsWith ((P ++ d₁) ++ S) s && !((P ++ d₁) ++ S).isEmpty) = true
    · rw [if_pos hcond]
      have hlw : leadsWith ((P ++ d₁) ++ S) s = true := by
        cases hl : leadsWith ((P ++ d₁) ++ S) s
        · rw [hl] at hcond
          simp at hcond
        · rfl
      have hsd := leadsWith_eq_append _ s hlw
      have hkey : ∀ b', countTokensAux ((P ++ d₂) ++ S) b' =
          countTokensAux ((P ++ d₁) ++ S) b' :=
        fun b' => (countAux_digit_swap d₂ d₁ h₂ h₁ hn₂ hn₁ P S b')
      have hse : stateAfter ((P ++ d₂) ++ S) b = stateAfter ((P ++ d₁) ++ S) b := by
        rw [stateAfter_append, stateAfter_append, stateAfter_append, stateAfter_append,
            stateAfter_nonspace d₁ h₁ hn₁, stateAfter_nonspace d₂ h₂ hn₂]
      rw [countAux_append, hkey, hse, ih]
      rw [← countAux_append]
      rw [← hsd]
    · rw [if_neg hcond]
      cases s with
      | nil => rfl
      | cons c t =>
        show countTokensAux (c :: pyReplaceF fuel t ((P ++ d₁) ++ S) ((P ++ d₂) ++ S)) b =
          countTokensAux (c :: t) b
        rw [countAux_cons, countAux_cons]
        cases hc : pySpace c
        · simp only [hc, Bool.false_eq_true, if_false]
          rw [ih t true]
        · simp only [hc, eq_self_iff_true, if_true]
          exact ih t false

theorem countTokens_pyReplace (s P S d₁ d₂ : Str) (h₁ : d₁ ≠ []) (h₂ : d₂ ≠ [])
    (hn₁ : ∀ c ∈ d₁, pySpace c = false) (hn₂ : ∀ c ∈ d₂, pySpace c = false) :
    countTokens (pyReplace s ((P ++ d₁) ++ S) ((P ++ d₂) ++ S)) = countTokens s := by
  unfold pyReplace countTokens
  have hnil : ((P ++ d₁) ++ S) ≠ [] := by
    intro hn
    rcases List.append_eq_nil.mp hn with ⟨h12, _⟩
    rcases List.append_eq_nil.mp h12 with ⟨_, hd⟩
    exact h₁ hd
  have hne : ((P ++ d₁) ++ S).isEmpty = false := by
    cases hd : (P ++ d₁) ++ S with
    | nil => exact absurd hd hnil
    | cons x xs => rfl
  rw [if_neg (by rw [hne]; simp)]
  exact countAux_pyReplaceF P S d₁ d₂ h₁ h₂ hn₁ hn₂ _ s false

theorem natToStrAux_digits : ∀ (fuel n : Nat) (c : Char), c ∈ natToStrAux n fuel →
    ∃ k, k < 10 ∧ c = digitChar k := by
  intro fuel
  induction fuel with
  | zero => intro n c h; simp [natToStrAux] at h
  | succ fuel ih =>
    intro n c h
    by_cases hn : n < 10
    · simp [natToStrAux, hn] at h
      exact ⟨n, hn, h⟩
    · simp only [natToStrAux, if_neg hn, List.mem_append] at h
      rcases h with h | h
      · exact ih (n / 10) c h
      · exact ⟨n % 10, Nat.mod_lt _ (by omega), by simpa using h⟩

theorem natToStr_nonspace (n : Nat) : ∀ c ∈ natToStr n, pySpace c = false := by
  intro c hc
  rcases natToStrAux_digits (n + 1) n c hc with ⟨k, hk, rfl⟩
  have hd : ∀ k, k < 10 → pySpace (digitChar k) = false := by decide
  exact hd k hk

theorem natToStr_ne_nil (n : Nat) : natToStr n ≠ [] := by
  unfold natToStr natToStrAux
  by_cases hn : n < 10 <;> simp [hn]

/-- C1 amended.  The token figure patched into the header equals the
whitespace-tokenizer count of the complete written artifact, header
digits included: the count was taken over the assembly carrying the
preliminary per-file total, and swapping one digit run for another
never changes a whitespace token count.  The written artifact indeed
begins with the patched figure, and it is exactly what every writing
run puts on disk. -/
theorem C1_stored_count_retokenizes (fuel : Nat) (cfg : Cfg) :
    countTokens (writtenArtifact fuel cfg) = finalTokenCount fuel cfg ∧
    leadsWith (strL "Total Tokens: " ++ natToStr (finalTokenCount fuel cfg))
      (writtenArtifact fuel cfg) = true ∧
    ∀ s, process fuel cfg = some s → s = writtenArtifact fuel cfg := by
  refine ⟨?_, ?_, ?_⟩
  · show countTokens (pyReplace (fullOutput fuel cfg)
      ((strL "Total Tokens: " ++ natToStr (totalTokens fuel cfg)) ++ noteSuffix)
      ((strL "Total Tokens: " ++ natToStr (finalTokenCount fuel cfg)) ++ noteSuffix)) =
      finalTokenCount fuel cfg
    rw [countTokens_pyReplace (fullOutput fuel cfg) (strL "Total Tokens: ") noteSuffix
      (natToStr (totalTokens fuel cfg)) (natToStr (finalTokenCount fuel cfg))
      (natToStr_ne_nil _) (natToStr_ne_nil _) (natToStr_nonspace _) (natToStr_nonspace _)]
    rfl
  · have hfo : fullOutput fuel cfg = tokenInfo fuel cfg ++
        (strL "\n\n" ++
          (if cfg.includePatterns.isEmpty then []
           else strL "Note: Only selected files are included with content. Inclusion patterns: " ++
             List.intercalate (strL ", ") (normIncl cfg) ++ strL "\n\n") ++
          treeContentStr fuel cfg ++ contentBlob fuel cfg) := by
      simp [fullOutput, headerContent]
    set rest := strL "\n\n" ++
        (if cfg.includePatterns.isEmpty then []
         else strL "Note: Only selected files are included with content. Inclusion patterns: " ++
           List.intercalate (strL ", ") (normIncl cfg) ++ strL "\n\n") ++
        treeContentStr fuel cfg ++ contentBlob fuel cfg with hrest
    have hne : (tokenInfo fuel cfg).isEmpty = false := rfl
    show leadsWith (strL "Total Tokens: " ++ natToStr (finalTokenCount fuel cfg))
      (pyReplaceF ((fullOutput fuel cfg).length + 1) (fullOutput fuel cfg)
        (tokenInfo fuel cfg) (updatedTokenInfo fuel cfg)) = true
    rw [hfo]
    rw [pyReplaceF_succ]
    rw [if_pos (by rw [leadsWith_append_self, hne]; rfl)]
    have hstep : leadsWith (strL "Total Tokens: " ++ natToStr (finalTokenCount fuel cfg))
        (updatedTokenInfo fuel cfg) = true := by
      show leadsWith (strL "Total Tokens: " ++ natToStr (finalTokenCount fuel cfg))
        ((strL "Total Tokens: " ++ natToStr (finalTokenCount fuel cfg)) ++ noteSuffix) = true
      exact leadsWith_append_self _ _
    refine leadsWith_trans _ _ _ hstep ?_
    exact leadsWith_append_self _ _
  · intro s h
    unfold process at h
    split at h
    · exact absurd h (by simp)
    · split at h
      · exact absurd h (by simp)
      · split at h
        · exact absurd h (by simp)
        · simpa using h.symm

/-- Modelled from the spec claim wording, not from the code: the
header with its own digits excluded (the header prefix), used to state
the claimed re-tokenization. -/
def headerContentNoDigits (cfg : Cfg) : Str :=
  strL "Total Tokens: " ++ noteSuffix ++ strL "\n\n" ++
    (if cfg.includePatterns.isEmpty then []
     else strL "Note: Only selected files are included with content. Inclusion patterns: " ++
       List.intercalate (strL ", ") (normIncl cfg) ++ strL "\n\n")

/-- Modelled from the spec claim wording: re-tokenizing the artifact
from the tree line onward plus the digit-free header prefix. -/
def headerDigitsExcludedCount (fuel : Nat) (cfg : Cfg) : Nat :=
  countTokens (headerContentNoDigits cfg ++ treeContentStr fuel cfg ++ contentBlob fuel cfg)

def c1Cfg : Cfg :=
  { rootExists := true, rootPath := strL "/r",
    fsRoot := [.file (strL "a.txt") 5 (.text (strL "hello"))],
    outputAbs := strL "/out/out.txt", exclusions := [], includePatterns := [],
    outputExists := false, overwrite := true, ansOverwrite := [], ansZeroMatch := [] }

/-- C1 counterexample.  On a one-file tree the stored figure is 22 and
the artifact starts with it, but re-tokenizing with the header digits
excluded gives 21: the digit run itself is one whitespace token, so
the claimed digits-excluded reading is off by one. -/
theorem C1_counterexample :
    finalTokenCount 20 c1Cfg = 22 ∧
    leadsWith (strL "Total Tokens: 22") (writtenArtifact 20 c1Cfg) = true ∧
    headerDigitsExcludedCount 20 c1Cfg = 21 ∧
    process 20 c1Cfg = some (writtenArtifact 20 c1Cfg) := by
  refine ⟨by decide, by decide, by decide, by decide⟩

theorem C1_stored_count_retokenizes_witness :
    process 20 c1Cfg = some (writtenArtifact 20 c1Cfg) ∧
      countTokens (writtenArtifact 20 c1Cfg) = finalTokenCount 20 c1Cfg :=
  ⟨by decide, (C1_stored_count_retokenizes 20 c1Cfg).1⟩

end CodebaseExtractor
